import Mathlib

/-!
Verification of the compreffor CFF Type-2 charstring subroutinizer core
(pyCompressor.py).  The development shallowly embeds the token model,
hintmask collapse and expansion, the suffix and LCP construction, candidate
extraction, the marketplace dynamic program, the pruning schedule, the
budgeted subroutine assignment, the nesting limit, the bias-aware
reordering, and program emission, and proves or refutes the specification
claims about them.
-/

namespace Compreffor

/-! ### Token model -/

/-- Tokens of a charstring program as they appear in a fontTools program
list: operator or mask-byte strings, integer operands, real operands (the
payload is abstracted to an integer identifier), and the fused hintmask
pair produced by collapse_hintmask (a Python 2-tuple of two tokens). -/
inductive Tok : Type
  | str : String → Tok
  | num : Int → Tok
  | real : Int → Tok
  | pair : Tok → Tok → Tok
deriving DecidableEq, Repr

/-- Test for the hintmask and cntrmask operator tokens, the membership test
tok in ("hintmask", "cntrmask") from the source (a Python tuple member test
is equality, so it is true only for those two strings). -/
def isMaskOp : Tok → Bool
  | Tok.str s => s = "hintmask" || s = "cntrmask"
  | _ => false

/-- Test for a non-pair token. -/
def notPair : Tok → Bool
  | Tok.pair _ _ => false
  | _ => true

/-! ### Compreffor.collapse_hintmask and Compreffor.expand_hintmask
(pyCompressor.py lines 917-938) -/

/-- Compreffor.collapse_hintmask: fuse each hintmask or cntrmask operator
with the immediately following token into one pair token.  The source
splices the list under a live iterator, so the consumed mask-bytes token is
skipped; reading program at i+1 when the mask operator is the last token
raises IndexError, modelled as none. -/
def collapseHintmask : List Tok → Option (List Tok)
  | [] => some []
  | t :: rest =>
    if isMaskOp t then
      match rest with
      | [] => none
      | m :: rest2 => (collapseHintmask rest2).map (fun l => Tok.pair t m :: l)
    else
      (collapseHintmask rest).map (fun l => t :: l)

/-- Helper for expand_hintmask: the source splices the two components of a
pair into the list and the live iterator continues at the second component,
so a chain of pairs nested in second position is peeled left to right; each
peeled pair asserts its first component is a hintmask or cntrmask operator
(assertion failure modelled as none).  A non-pair token is emitted as is. -/
def peelPair : Tok → Option (List Tok)
  | Tok.pair a b => if isMaskOp a then (peelPair b).map (fun l => a :: l) else none
  | t => some [t]

/-- Compreffor.expand_hintmask: split each pair token back into its two
components (peeling nested pairs per the live-iterator semantics). -/
def expandHintmask : List Tok → Option (List Tok)
  | [] => some []
  | t :: rest => do
      let hd ← peelPair t
      let tl ← expandHintmask rest
      pure (hd ++ tl)

/-- Programs in the expanded two-token form: no pair tokens, and every mask
operator is immediately followed by a (non-pair) mask-bytes token.  This is
the input contract for collapse_hintmask on glyph programs. -/
def maskWF : List Tok → Bool
  | [] => true
  | t :: rest =>
    notPair t &&
      (if isMaskOp t then
        match rest with
        | [] => false
        | m :: rest2 => notPair m && maskWF rest2
      else maskWF rest)

/-- Helper: peeling a non-pair token yields the singleton list. -/
theorem peelPair_notPair (t : Tok) (h : notPair t = true) :
    peelPair t = some [t] := by
  match t, h with
  | Tok.str s, _ => rfl
  | Tok.num k, _ => rfl
  | Tok.real k, _ => rfl

/-- Helper: collapsing a wellformed expanded program succeeds, and expanding
the result restores the original program. -/
theorem collapse_expand_id : ∀ (n : Nat) (p : List Tok), p.length ≤ n →
    maskWF p = true →
    ∃ q, collapseHintmask p = some q ∧ expandHintmask q = some p := by
  intro n
  induction n with
  | zero =>
    intro p hlen _
    have : p = [] := List.length_eq_zero.mp (Nat.le_zero.mp hlen)
    subst this
    exact ⟨[], rfl, rfl⟩
  | succ n ih =>
    intro p hlen hwf
    match p, hlen, hwf with
    | [], _, _ => exact ⟨[], rfl, rfl⟩
    | t :: rest, hlen, hwf =>
      rw [maskWF.eq_def] at hwf
      simp only [Bool.and_eq_true] at hwf
      obtain ⟨hnp, hrest⟩ := hwf
      by_cases hm : isMaskOp t = true
      · rw [if_pos hm] at hrest
        match rest with
        | [] => simp at hrest
        | m :: rest2 =>
          simp only [Bool.and_eq_true] at hrest
          obtain ⟨hmnp, hwf2⟩ := hrest
          have hlen2 : rest2.length ≤ n := by
            simp only [List.length_cons] at hlen; omega
          obtain ⟨q2, hc2, he2⟩ := ih rest2 hlen2 hwf2
          refine ⟨Tok.pair t m :: q2, ?_, ?_⟩
          · simp [collapseHintmask, hm, hc2]
          · simp [expandHintmask, peelPair, hm, peelPair_notPair m hmnp, he2]
      · rw [if_neg hm] at hrest
        have hlen1 : rest.length ≤ n := by
          simp only [List.length_cons] at hlen; omega
        obtain ⟨q1, hc1, he1⟩ := ih rest hlen1 hrest
        refine ⟨t :: q1, ?_, ?_⟩
        · rw [collapseHintmask.eq_def]
          simp [hm, hc1]
        · simp [expandHintmask, peelPair_notPair t hnp, he1]

/-- C9: for every program in which each hintmask/cntrmask token is
immediately followed by its mask-bytes token (the expanded wellformed
form), applying collapse_hintmask and then expand_hintmask yields the
original token list unchanged. -/
theorem c9_collapse_expand_roundtrip (p : List Tok) (h : maskWF p = true) :
    ∃ q, collapseHintmask p = some q ∧ expandHintmask q = some p :=
  collapse_expand_id p.length p (Nat.le_refl _) h

/-- C9 witness: a concrete program with a hintmask pair round-trips. -/
theorem c9_witness :
    maskWF [Tok.num 1, Tok.str "hintmask", Tok.str "m1", Tok.num 3] = true ∧
    ∃ q, collapseHintmask [Tok.num 1, Tok.str "hintmask", Tok.str "m1", Tok.num 3] = some q ∧
      expandHintmask q = some [Tok.num 1, Tok.str "hintmask", Tok.str "m1", Tok.num 3] :=
  ⟨by decide, c9_collapse_expand_roundtrip _ (by decide)⟩

/-! ### CandidateSubr.subr_saving and the pruning schedule
(pyCompressor.py lines 139-173 and 677-696) -/

/-- CandidateSubr.subr_saving with explicit cost and amount:
cost * amt - cost - call_cost * amt - subr_overhead. -/
def subrSaving (cost amt callCost subrOverhead : Int) : Int :=
  cost * amt - cost - callCost * amt - subrOverhead

/-- Market-round substring state consulted by the pruning step.  The
realCost field records what CandidateSubr.real_cost would return; the
pruning code never reads it because both branches pass true_cost False. -/
structure MarketSubr where
  cost : Int
  usages : Int
  realCost : Int
deriving DecidableEq, Repr

/-- Saving used by pruning decisions: subr_saving(use_usages=True,
true_cost=tc) with the default call_cost 5 and subr_overhead 3. -/
def pruneSaving (tc : Bool) (s : MarketSubr) : Int :=
  subrSaving (if tc then s.realCost else s.cost) s.usages 5 3

/-- Pruning step of one marketplace round, lines 677-696 of pyCompressor.py:
entered when run_count <= NROUNDS - 2 and not test mode.  The branch for
run_count < NROUNDS - 2 calls subr_saving(use_usages=True), whose true_cost
default is False; the branch for run_count = NROUNDS - 2 (the penultimate
round) passes true_cost=False explicitly.  Substrings with non-positive
saving are removed. -/
def roundPrune (nrounds : Int) (testMode : Bool) (runCount : Int)
    (l : List MarketSubr) : List MarketSubr :=
  if runCount ≤ nrounds - 2 ∧ testMode = false then
    if runCount < nrounds - 2 then l.filter (fun s => 0 < pruneSaving false s)
    else l.filter (fun s => 0 < pruneSaving false s)
  else l

/-- C3 counterexample: with NROUNDS = 4 (rounds 0,1,2,3) and test mode off,
the penultimate round run_count = 2 is one of the last two rounds, yet it
does prune; moreover it prunes a substring whose true_cost saving is
positive, so the decision used the true_cost=False variant, not the
true_cost one the claim asserts. -/
theorem c3_counterexample :
    roundPrune 4 false 2 [⟨1, 10, 100⟩] = [] ∧
    0 < pruneSaving true ⟨1, 10, 100⟩ := by decide

/-- C3 amended: with test mode off, pruning of bad substrings is performed
in a round if and only if that round is not the last round (run_count at
most NROUNDS - 2); every pruning round, the penultimate included, filters
by the true_cost=False variant of subr_saving with usages. -/
theorem c3_amended (nrounds runCount : Int) (l : List MarketSubr) :
    roundPrune nrounds false runCount l =
      if runCount ≤ nrounds - 2 then
        l.filter (fun s => 0 < pruneSaving false s)
      else l := by
  by_cases h : runCount ≤ nrounds - 2
  · rw [roundPrune, if_pos ⟨h, rfl⟩, if_pos h]
    by_cases h2 : runCount < nrounds - 2
    · rw [if_pos h2]
    · rw [if_neg h2]
  · rw [roundPrune, if_neg (fun hc => h hc.1), if_neg h]

/-! ### SubstringFinder.get_substrings (pyCompressor.py lines 351-411) -/

/-- Position of a suffix in the corpus: (glyph index, token index). -/
abbrev Pos := Nat × Nat

/-- Candidate substring record: the length, location and frequency stored
on a CandidateSubr by the extraction loop. -/
structure Candidate where
  length : Nat
  location : Pos
  freq : Int
deriving DecidableEq, Repr

/-- CandidateSubr.value: the slice
data[location.1][location.2 : location.2 + length]. -/
def candValue (data : List (List Nat)) (c : Candidate) : List Nat :=
  ((data.getD c.location.1 []).drop c.location.2).take c.length

/-- CandidateSubr.cost: the sum of the cost_map entries of the value codes
(codes are always in range of cost_map in the pipeline, so the default 0 of
getD is never used there). -/
def candCost (data : List (List Nat)) (costMap : List Int) (c : Candidate) : Int :=
  ((candValue data c).map (fun t => costMap.getD t 0)).sum

/-- CandidateSubr.subr_saving with its defaults: amt is the raw frequency,
cost is the raw token cost, call_cost 5 and subr_overhead 3. -/
def candSaving (data : List (List Nat)) (costMap : List Int) (c : Candidate) : Int :=
  subrSaving (candCost data costMap c) c.freq 5 3

/-- Python list indexing with negative wraparound (index -1 reads the last
element), used because the stack bottom stores start index -1. -/
def pyGet (l : List Pos) (i : Int) : Pos :=
  if i < 0 then l.getD (l.length - (-i).toNat) (0, 0) else l.getD i.toNat (0, 0)

/-- Filter applied to a popped candidate: kept when its frequency is at
least min_freq and, if check_positive, its saving is positive (lines
386-396: freq < min_freq continues, then subr_saving() > 0 or not
check_positive appends). -/
def keepCand (data : List (List Nat)) (costMap : List Int) (minFreq : Int)
    (checkPositive : Bool) (c : Candidate) : Bool :=
  !(c.freq < minFreq) && (decide (0 < candSaving data costMap c) || !checkPositive)

/-- Helper: characterization of keepCand. -/
theorem keepCand_iff (data : List (List Nat)) (costMap : List Int)
    (minFreq : Int) (cp : Bool) (c : Candidate) :
    keepCand data costMap minFreq cp c = true ↔
      (minFreq ≤ c.freq ∧ (cp = true → 0 < candSaving data costMap c)) := by
  cases cp <;> simp [keepCand]

/-- Inner while loop of get_substrings: pop stack intervals whose height
exceeds min_l, emitting a candidate for each popped interval, filtered by
keepCand (lines 383-396).  The stack top is the list head. -/
def popLoop (data : List (List Nat)) (costMap : List Int) (suffixes : List Pos)
    (minFreq : Int) (checkPositive : Bool) (i : Nat) (minL : Nat) :
    List (Nat × Int) → List Candidate → List (Nat × Int) × List Candidate
  | [], out => ([], out)
  | (l, startIdx) :: stackRest, out =>
    if minL < l then
      let c : Candidate := ⟨l, pyGet suffixes startIdx, (i : Int) - startIdx⟩
      if keepCand data costMap minFreq checkPositive c then
        popLoop data costMap suffixes minFreq checkPositive i minL stackRest (out ++ [c])
      else
        popLoop data costMap suffixes minFreq checkPositive i minL stackRest out
    else ((l, startIdx) :: stackRest, out)

/-- Outer loop of get_substrings over the LCP array with the running index
i: pop per popLoop, then push (min_l, i-1) when the stack is empty or the
top height is smaller than min_l (lines 376-399). -/
def extractLoop (data : List (List Nat)) (costMap : List Int) (suffixes : List Pos)
    (minFreq : Int) (checkPositive : Bool) :
    List Nat → Nat → List (Nat × Int) → List Candidate → List Candidate
  | [], _, _, out => out
  | minL :: lcpRest, i, stack, out =>
    let so := popLoop data costMap suffixes minFreq checkPositive i minL stack out
    let stack3 : List (Nat × Int) :=
      match so.1 with
      | [] => [(minL, (i : Int) - 1)]
      | (topl, s) :: rest =>
        if topl < minL then (minL, (i : Int) - 1) :: (topl, s) :: rest
        else (topl, s) :: rest
    extractLoop data costMap suffixes minFreq checkPositive lcpRest (i + 1) stack3 so.2

/-- Python stable sort descending by an integer key (list.sort with a key
function and reverse=True), modelled by stable insertion sort under the
total relation comparing keys downward. -/
def pySortByDesc (key : Candidate → Int) (l : List Candidate) : List Candidate :=
  List.insertionSort (fun a b => key b ≤ key a) l

/-- SubstringFinder.get_substrings: extract candidates from the LCP array
with the min_freq and check_positive filters and sort by descending saving
(sort_by_length is false at every call site in iterative_encode). -/
def getSubstrings (data : List (List Nat)) (costMap : List Int) (suffixes : List Pos)
    (lcp : List Nat) (minFreq : Int) (checkPositive : Bool) : List Candidate :=
  pySortByDesc (candSaving data costMap)
    (extractLoop data costMap suffixes minFreq checkPositive lcp 0 [] [])

/-- Helper: the inner loop only appends to its accumulator. -/
theorem popLoop_acc (data : List (List Nat)) (costMap : List Int)
    (suffixes : List Pos) (minFreq : Int) (checkPositive : Bool) (i minL : Nat) :
    ∀ (stack : List (Nat × Int)) (out : List Candidate),
    popLoop data costMap suffixes minFreq checkPositive i minL stack out =
      ((popLoop data costMap suffixes minFreq checkPositive i minL stack []).1,
       out ++ (popLoop data costMap suffixes minFreq checkPositive i minL stack []).2) := by
  intro stack
  induction stack with
  | nil => intro out; simp [popLoop]
  | cons hd rest ih =>
    intro out
    obtain ⟨l, startIdx⟩ := hd
    by_cases hl : minL < l
    · rw [popLoop, if_pos hl, popLoop, if_pos hl]
      by_cases hk : keepCand data costMap minFreq checkPositive
          ⟨l, pyGet suffixes startIdx, (i : Int) - startIdx⟩ = true
      · simp only [hk, if_true, List.nil_append]
        rw [ih (out ++ [_]), ih [_]]
        simp
      · simp only [hk]
        simp only [if_false, Bool.false_eq_true]
        exact ih out
    · rw [popLoop, if_neg hl, popLoop, if_neg hl]
      simp

/-- Helper: with a nonnegative min_freq (the source passes 0 or 2), the
filtered inner loop leaves the same stack as the min_freq 0,
check_positive False run and emits exactly the keepCand filter of the
candidates that run emits. -/
theorem popLoop_filter (data : List (List Nat)) (costMap : List Int)
    (suffixes : List Pos) (minFreq : Int) (checkPositive : Bool) (i minL : Nat)
    (hmf : 0 ≤ minFreq) :
    ∀ (stack : List (Nat × Int)),
    popLoop data costMap suffixes minFreq checkPositive i minL stack [] =
      ((popLoop data costMap suffixes 0 false i minL stack []).1,
       (popLoop data costMap suffixes 0 false i minL stack []).2.filter
         (keepCand data costMap minFreq checkPositive)) := by
  intro stack
  induction stack with
  | nil => simp [popLoop]
  | cons hd rest ih =>
    obtain ⟨l, startIdx⟩ := hd
    by_cases hl : minL < l
    · rw [popLoop, if_pos hl, popLoop, if_pos hl]
      by_cases h0 : keepCand data costMap 0 false
          ⟨l, pyGet suffixes startIdx, (i : Int) - startIdx⟩ = true
      · simp only [h0, if_true, List.nil_append]
        rw [popLoop_acc data costMap suffixes 0 false i minL rest [_]]
        by_cases hk : keepCand data costMap minFreq checkPositive
            ⟨l, pyGet suffixes startIdx, (i : Int) - startIdx⟩ = true
        · simp only [hk, if_true]
          rw [popLoop_acc data costMap suffixes minFreq checkPositive i minL rest [_], ih]
          simp [hk]
        · simp only [hk]
          simp only [if_false, Bool.false_eq_true]
          rw [ih]
          simp [hk]
      · have hneg : ((i : Int) - startIdx) < 0 := by
          by_contra hc
          refine h0 ((keepCand_iff data costMap 0 false _).mpr ⟨?_, by simp⟩)
          show (0 : Int) ≤ (i : Int) - startIdx
          omega
        have hk : ¬ keepCand data costMap minFreq checkPositive
            ⟨l, pyGet suffixes startIdx, (i : Int) - startIdx⟩ = true := by
          intro hkt
          have h2 : minFreq ≤ (i : Int) - startIdx :=
            ((keepCand_iff data costMap minFreq checkPositive _).mp hkt).1
          omega
        rw [if_neg h0, if_neg hk]
        exact ih
    · rw [popLoop, if_neg hl, popLoop, if_neg hl]
      simp

/-- Helper: the outer loop only appends to its accumulator. -/
theorem extractLoop_acc (data : List (List Nat)) (costMap : List Int)
    (suffixes : List Pos) (minFreq : Int) (checkPositive : Bool) :
    ∀ (lcp : List Nat) (i : Nat) (stack : List (Nat × Int)) (out : List Candidate),
    extractLoop data costMap suffixes minFreq checkPositive lcp i stack out =
      out ++ extractLoop data costMap suffixes minFreq checkPositive lcp i stack [] := by
  intro lcp
  induction lcp with
  | nil => intro i stack out; simp [extractLoop]
  | cons minL lcpRest ih =>
    intro i stack out
    rw [extractLoop, extractLoop]
    rw [popLoop_acc data costMap suffixes minFreq checkPositive i minL stack out]
    simp only []
    rw [ih (i + 1) _ (out ++ (popLoop data costMap suffixes minFreq checkPositive i minL stack []).2)]
    rw [ih (i + 1) _ ((popLoop data costMap suffixes minFreq checkPositive i minL stack []).2)]
    simp

/-- Helper: the filtered outer loop emits exactly the keepCand filter of
the unfiltered run (same stack trace along the way). -/
theorem extractLoop_filter (data : List (List Nat)) (costMap : List Int)
    (suffixes : List Pos) (minFreq : Int) (checkPositive : Bool)
    (hmf : 0 ≤ minFreq) :
    ∀ (lcp : List Nat) (i : Nat) (stack : List (Nat × Int)),
    extractLoop data costMap suffixes minFreq checkPositive lcp i stack [] =
      (extractLoop data costMap suffixes 0 false lcp i stack []).filter
        (keepCand data costMap minFreq checkPositive) := by
  intro lcp
  induction lcp with
  | nil => intro i stack; simp [extractLoop]
  | cons minL lcpRest ih =>
    intro i stack
    rw [extractLoop, extractLoop]
    rw [popLoop_filter data costMap suffixes minFreq checkPositive i minL hmf stack]
    rw [extractLoop_acc data costMap suffixes minFreq checkPositive lcpRest (i + 1) _ _]
    rw [extractLoop_acc data costMap suffixes 0 false lcpRest (i + 1) _ _]
    rw [ih (i + 1) _]
    simp [List.filter_append]

/-- C8: get_substrings returns exactly those LCP-extracted candidates whose
frequency is at least min_freq and, when check_positive, whose
subr_saving = cost*freq - cost - 5*freq - 3 is strictly positive; the
reference run with min_freq 0 and check_positive false is the test-mode
call, which keeps every extracted candidate. -/
theorem c8_get_substrings_filter (data : List (List Nat)) (costMap : List Int)
    (suffixes : List Pos) (lcp : List Nat) (minFreq : Int) (checkPositive : Bool)
    (hmf : 0 ≤ minFreq) (c : Candidate) :
    c ∈ getSubstrings data costMap suffixes lcp minFreq checkPositive ↔
      (c ∈ getSubstrings data costMap suffixes lcp 0 false ∧
       minFreq ≤ c.freq ∧
       (checkPositive = true → 0 < candSaving data costMap c)) := by
  unfold getSubstrings pySortByDesc
  rw [(List.perm_insertionSort _ _).mem_iff, (List.perm_insertionSort _ _).mem_iff]
  rw [extractLoop_filter data costMap suffixes minFreq checkPositive hmf lcp 0 []]
  rw [List.mem_filter]
  constructor
  · rintro ⟨hmem, hkeep⟩
    simp only [keepCand, Bool.and_eq_true, Bool.or_eq_true, Bool.not_eq_true,
      decide_eq_true_eq, decide_eq_false_iff_not, Bool.not_eq_eq_eq_not, Bool.not_true] at hkeep
    obtain ⟨h1, h2⟩ := hkeep
    refine ⟨hmem, by omega, ?_⟩
    intro hcp
    rcases h2 with h2 | h2
    · exact h2
    · rw [hcp] at h2; cases h2
  · rintro ⟨hmem, h1, h2⟩
    refine ⟨hmem, ?_⟩
    simp only [keepCand, Bool.and_eq_true, Bool.or_eq_true, Bool.not_eq_true,
      decide_eq_true_eq, decide_eq_false_iff_not, Bool.not_eq_eq_eq_not, Bool.not_true]
    constructor
    · simp only [decide_eq_false_iff_not, Int.not_lt]
      omega
    · by_cases hcp : checkPositive = true
      · exact Or.inl (h2 hcp)
      · exact Or.inr (by simp at hcp; exact hcp)

/-- C8 witness: concrete corpus with one repeated substring of saving -11,
extracted in the test-mode run and filtered out under check_positive. -/
theorem c8_witness :
    (0 : Int) ≤ 2 ∧
    ((⟨2, (0, 2), 2⟩ : Candidate) ∈
        getSubstrings [[0, 1, 0, 1]] [1, 1] [(0, 2), (0, 0), (0, 3), (0, 1)] [0, 2, 0, 1] 2 true ↔
      ((⟨2, (0, 2), 2⟩ : Candidate) ∈
          getSubstrings [[0, 1, 0, 1]] [1, 1] [(0, 2), (0, 0), (0, 3), (0, 1)] [0, 2, 0, 1] 0 false ∧
       (2 : Int) ≤ (⟨2, (0, 2), 2⟩ : Candidate).freq ∧
       (true = true → 0 < candSaving [[0, 1, 0, 1]] [1, 1] ⟨2, (0, 2), 2⟩))) :=
  ⟨by norm_num,
   c8_get_substrings_filter [[0, 1, 0, 1]] [1, 1] [(0, 2), (0, 0), (0, 3), (0, 1)]
     [0, 2, 0, 1] 2 true (by norm_num) ⟨2, (0, 2), 2⟩⟩

/-! ### Bias-aware reordering (pyCompressor.py lines 813-828) -/

/-- State of a CandidateSubr consulted by the post-processing steps of
process_subrs: reachable FD indices, usage count, computed call depth, the
flatten flag, and the final table position. -/
structure SubrState where
  fdidx : List Nat
  usages : Int
  maxCallDepth : Int
  flatten : Bool
  isGlobal : Bool
  position : Int
deriving DecidableEq, Repr

/-- Modelled from the spec: fontTools psCharStrings.calcSubrBias, the
external dependency used at lines 816-817; the bias is 107 for fewer than
1240 subrs, 1131 for fewer than 33900, else 32768. -/
def calcSubrBias {α : Type} (l : List α) : Int :=
  if l.length < 1240 then 107 else if l.length < 33900 then 1131 else 32768

/-- Python slice l[a:b] for nonnegative bounds. -/
def pySlice {α : Type} (l : List α) (a b : Nat) : List α :=
  (l.take b).drop a

/-- Reordering performed on each usage-sorted table, lines 823-827: bias
1131 moves slice [216:1240] to the front, then [0:216], then the rest
unchanged; bias 32768 concatenates the slices [2264:33901], [216:1240],
[0:216], [1240:2264], then the rest from index 33901. -/
def reorderForBias {α : Type} (bias : Int) (l : List α) : List α :=
  if bias = 1131 then pySlice l 216 1240 ++ pySlice l 0 216 ++ l.drop 1240
  else if bias = 32768 then
    pySlice l 2264 33901 ++ pySlice l 216 1240 ++ pySlice l 0 216 ++
      pySlice l 1240 2264 ++ l.drop 33901
  else l

/-- Ordering asserted by claim C10 for bias 32768: the entries at indices
[2264..33900) first, then [216..1240), then [0..216), then [1240..2264),
then all remaining entries (from 33900) in prior order. -/
def claimReorder32768 {α : Type} (l : List α) : List α :=
  pySlice l 2264 33900 ++ pySlice l 216 1240 ++ pySlice l 0 216 ++
    pySlice l 1240 2264 ++ l.drop 33900

/-- Python stable sort of a table descending by usages (line 821). -/
def pySortDescUsages (l : List SubrState) : List SubrState :=
  List.insertionSort (fun a b => b.usages ≤ a.usages) l

/-- Position assignment map(update_position, range(len(subr_arr)), subr_arr)
at line 828: each entry receives its index in the final order. -/
def updatePositions (l : List SubrState) : List SubrState :=
  l.enum.map (fun p => { p.2 with position := (p.1 : Int) })

/-- Per-table finalization, lines 819-828: sort by usages descending,
reorder for the bias, and assign positions. -/
def finalizeTable (bias : Int) (arr : List SubrState) : List SubrState :=
  updatePositions (reorderForBias bias (pySortDescUsages arr))

/-- Helper: element of a python slice. -/
theorem pySlice_get? {α : Type} (l : List α) (a b i : Nat) (h : a + i < b) :
    (pySlice l a b).get? i = l.get? (a + i) := by
  unfold pySlice
  rw [List.get?_drop]
  exact List.get?_take (by omega)

/-- C10 counterexample: on a table of 33902 distinct entries (bias 32768),
the code moves slice [2264:33901] to the front, not [2264:33900) as the
claim says: position 31636 of the reordered table holds entry 33900 under
the code but entry 216 under the claimed ordering. -/
theorem c10_counterexample :
    calcSubrBias (List.range 33902) = 32768 ∧
    reorderForBias 32768 (List.range 33902) ≠ claimReorder32768 (List.range 33902) := by
  constructor
  · rw [calcSubrBias]
    rw [List.length_range]
    norm_num
  · intro heq
    have hlen1 : (pySlice (List.range 33902) 2264 33901).length = 31637 := by
      simp [pySlice, List.length_range]
    have hlen1c : (pySlice (List.range 33902) 2264 33900).length = 31636 := by
      simp [pySlice, List.length_range]
    have h1 : (reorderForBias 32768 (List.range 33902)).get? 31636 = some 33900 := by
      rw [reorderForBias, if_neg (by norm_num), if_pos rfl]
      simp only [List.append_assoc]
      rw [List.get?_append (by rw [hlen1]; norm_num)]
      rw [pySlice_get? _ _ _ _ (by norm_num)]
      show (List.range 33902).get? 33900 = some 33900
      exact List.get?_range (by norm_num)
    have h2 : (claimReorder32768 (List.range 33902)).get? 31636 = some 216 := by
      rw [claimReorder32768]
      simp only [List.append_assoc]
      rw [List.get?_append_right (by rw [hlen1c])]
      rw [hlen1c]
      have hlen2 : (pySlice (List.range 33902) 216 1240).length = 1024 := by
        simp [pySlice, List.length_range]
      rw [List.get?_append (by rw [hlen2]; norm_num)]
      rw [pySlice_get? _ _ _ _ (by norm_num)]
      show (List.range 33902).get? 216 = some 216
      exact List.get?_range (by norm_num)
    rw [heq, h2] at h1
    simp at h1

/-- C10 amended: for every table, after the descending-usages sort the
bias 32768 reordering places the entries at indices [2264..33901) first,
then [216..1240), then [0..216), then [1240..2264), then the remaining
entries (from 33901) in their prior order, and each entry receives its
index in this final order as its position. -/
theorem c10_amended (arr : List SubrState) :
    finalizeTable 32768 arr =
      updatePositions
        (pySlice (pySortDescUsages arr) 2264 33901 ++
         pySlice (pySortDescUsages arr) 216 1240 ++
         pySlice (pySortDescUsages arr) 0 216 ++
         pySlice (pySortDescUsages arr) 1240 2264 ++
         (pySortDescUsages arr).drop 33901) ∧
    (finalizeTable 32768 arr).map (fun s => s.position) =
      (List.range (reorderForBias 32768 (pySortDescUsages arr)).length).map
        (fun (n : Nat) => (n : Int)) := by
  constructor
  · rw [finalizeTable, reorderForBias, if_neg (by norm_num), if_pos rfl]
  · rw [finalizeTable, updatePositions]
    rw [List.map_map]
    have h1 : ((fun s => s.position) ∘ fun (p : Nat × SubrState) =>
        { p.2 with position := (p.1 : Int) }) =
        (fun (n : Nat) => (n : Int)) ∘ (Prod.fst : Nat × SubrState → Nat) := rfl
    rw [h1]
    have h3 : (reorderForBias 32768 (pySortDescUsages arr)).enum.map
        ((fun (n : Nat) => (n : Int)) ∘ (Prod.fst : Nat × SubrState → Nat)) =
        ((reorderForBias 32768 (pySortDescUsages arr)).enum.map Prod.fst).map
          (fun (n : Nat) => (n : Int)) := by
      rw [List.map_map]
    rw [h3, List.enum_map_fst]

/-! ### Nesting-limit enforcement (pyCompressor.py lines 798-806) -/

/-- The set_flatten closure of process_subrs. -/
def setFlatten (s : SubrState) : SubrState := { s with flatten := true }

/-- Lines 801-806: collect placed substrings whose computed _max_call_depth
exceeds nest_limit (local tables first, then globals), flatten them and
append them to bad_substrings, and rebuild every table keeping only
entries within the limit. -/
def applyNestLimit (nestLimit : Int) (gsubrs : List SubrState)
    (lsubrs : List (List SubrState)) (bad : List SubrState) :
    List SubrState × List (List SubrState) × List SubrState :=
  let tooNested := (lsubrs.join.filter (fun s => nestLimit < s.maxCallDepth)) ++
    gsubrs.filter (fun s => nestLimit < s.maxCallDepth)
  let bad2 := bad ++ tooNested.map setFlatten
  let lsubrs2 := lsubrs.map (List.filter (fun s => s.maxCallDepth ≤ nestLimit))
  let gsubrs2 := gsubrs.filter (fun s => s.maxCallDepth ≤ nestLimit)
  (gsubrs2, lsubrs2, bad2)

/-- C6: after the nesting-limit step of process_subrs, every subroutine
kept in gsubrs and in any lsubrs table has _max_call_depth at most the
nest limit (SUBR_NEST_LIMIT, default 10), and every placed substring whose
depth exceeds the limit is flattened (appears flattened among the bad
substrings) and is removed from its table. -/
theorem c6_nest_limit (nestLimit : Int) (gsubrs : List SubrState)
    (lsubrs : List (List SubrState)) (bad : List SubrState) :
    (∀ s ∈ (applyNestLimit nestLimit gsubrs lsubrs bad).1,
        s.maxCallDepth ≤ nestLimit) ∧
    (∀ arr ∈ (applyNestLimit nestLimit gsubrs lsubrs bad).2.1,
        ∀ s ∈ arr, s.maxCallDepth ≤ nestLimit) ∧
    (∀ s, (s ∈ gsubrs ∨ ∃ arr ∈ lsubrs, s ∈ arr) → nestLimit < s.maxCallDepth →
        setFlatten s ∈ (applyNestLimit nestLimit gsubrs lsubrs bad).2.2 ∧
        s ∉ (applyNestLimit nestLimit gsubrs lsubrs bad).1 ∧
        ∀ arr ∈ (applyNestLimit nestLimit gsubrs lsubrs bad).2.1, s ∉ arr) := by
  refine ⟨?_, ?_, ?_⟩
  · intro s hs
    have := (List.mem_filter.mp hs).2
    simpa using this
  · intro arr harr s hs
    simp only [applyNestLimit, List.mem_map] at harr
    obtain ⟨arr0, _, rfl⟩ := harr
    have := (List.mem_filter.mp hs).2
    simpa using this
  · intro s hmem hdepth
    have htoo : s ∈ (lsubrs.join.filter (fun s => nestLimit < s.maxCallDepth)) ++
        gsubrs.filter (fun s => nestLimit < s.maxCallDepth) := by
      rcases hmem with hg | ⟨arr, harr, hs⟩
      · exact List.mem_append_right _
          (List.mem_filter.mpr ⟨hg, by simpa using hdepth⟩)
      · exact List.mem_append_left _
          (List.mem_filter.mpr ⟨List.mem_join.mpr ⟨arr, harr, hs⟩, by simpa using hdepth⟩)
    refine ⟨?_, ?_, ?_⟩
    · exact List.mem_append_right _ (List.mem_map.mpr ⟨s, htoo, rfl⟩)
    · intro hin
      have := (List.mem_filter.mp hin).2
      simp only [decide_eq_true_eq] at this
      omega
    · intro arr harr hin
      simp only [applyNestLimit, List.mem_map] at harr
      obtain ⟨arr0, _, rfl⟩ := harr
      have := (List.mem_filter.mp hin).2
      simp only [decide_eq_true_eq] at this
      omega

/-- C6 witness: a global subr of depth 11 is flattened and removed at the
default limit 10 while a local subr of depth 3 stays. -/
theorem c6_witness :
    setFlatten ⟨[], 0, 11, false, false, 0⟩ ∈
      (applyNestLimit 10 [⟨[], 0, 11, false, false, 0⟩]
        [[⟨[0], 1, 3, false, false, 0⟩]] []).2.2 :=
  ((c6_nest_limit 10 [⟨[], 0, 11, false, false, 0⟩]
      [[⟨[0], 1, 3, false, false, 0⟩]] []).2.2
    ⟨[], 0, 11, false, false, 0⟩ (Or.inl (by simp)) (by norm_num)).1

/-! ### Budgeted assignment (pyCompressor.py lines 543-560 and 752-795) -/

/-- Compreffor.test_call_cost (lines 543-553): byte cost of calling subr if
it were inserted into the usage-sorted table subrs; falls through from the
2263-entry test to the 215-entry test when the usage comparison fails. -/
def testCallCost (subr : SubrState) (subrs : List SubrState) : Int :=
  if 2263 ≤ subrs.length ∧
      subr.usages ≤ (subrs.getD 2262 ⟨[], 0, 0, false, false, 0⟩).usages then 3
  else if 215 ≤ subrs.length ∧
      subr.usages ≤ (subrs.getD 214 ⟨[], 0, 0, false, false, 0⟩).usages then 2
  else 1

/-- Compreffor.insert_by_usage (lines 555-560): append then stable sort
descending by usages. -/
def insertByUsage (subr : SubrState) (subrs : List SubrState) : List SubrState :=
  pySortDescUsages (subrs ++ [subr])

/-- Assignment while-loop of process_subrs (lines 757-792), processing the
saving-ascending survivor list from its tail; the argument list here is the
reversed survivor list, so the head is the next subr popped.  Returns the
tables, the bad list and the unprocessed leftover; reading
lsubrs[subr._fdidx[0]] out of range raises IndexError, modelled as none. -/
def assignGo (limit : Int) :
    List SubrState → List SubrState → List (List SubrState) → List SubrState →
    Option (List SubrState × List (List SubrState) × List SubrState × List SubrState)
  | [], gsubrs, lsubrs, bad => some (gsubrs, lsubrs, bad, [])
  | subr :: rest, gsubrs, lsubrs, bad =>
    if lsubrs.any (fun arr => (arr.length : Int) < limit) ∨ (gsubrs.length : Int) < limit then
      match subr.fdidx with
      | [j] =>
        if j < lsubrs.length then
          let lsub := lsubrs.getD j []
          if (gsubrs.length : Int) < limit then
            if (lsub.length : Int) < limit then
              if testCallCost subr gsubrs < testCallCost subr lsub then
                assignGo limit rest (insertByUsage { subr with isGlobal := true } gsubrs) lsubrs bad
              else
                assignGo limit rest gsubrs (lsubrs.set j (insertByUsage subr lsub)) bad
            else
              assignGo limit rest (insertByUsage { subr with isGlobal := true } gsubrs) lsubrs bad
          else if (lsub.length : Int) < limit then
            assignGo limit rest gsubrs (lsubrs.set j (insertByUsage subr lsub)) bad
          else
            assignGo limit rest gsubrs lsubrs (bad ++ [subr])
        else none
      | _ =>
        if (gsubrs.length : Int) < limit then
          assignGo limit rest (insertByUsage { subr with isGlobal := true } gsubrs) lsubrs bad
        else
          assignGo limit rest gsubrs lsubrs (bad ++ [subr])
    else some (gsubrs, lsubrs, bad, subr :: rest)

/-- Assignment stage of process_subrs: the while loop of lines 757-792
followed by line 793, bad_substrings.extend([s[1] for s in subrs]).  A
CandidateSubr supports no indexing, so when the loop exits with leftover
subrs the expression s[1] raises TypeError; the failure is modelled as
none.  The subrs argument is the saving-ascending survivor list. -/
def assignSubrs (limit : Int) (subrs gsubrs : List SubrState)
    (lsubrs : List (List SubrState)) (bad : List SubrState) :
    Option (List SubrState × List (List SubrState) × List SubrState) := do
  let r ← assignGo limit subrs.reverse gsubrs lsubrs bad
  if r.2.2.2 = [] then some (r.1, r.2.1, r.2.2.1) else none

/-- C2, refuted: when every table is already at the limit and survivors
remain, the assignment stage raises (TypeError at line 793) instead of
flattening the remainder: with limit 1, one full global table and one full
local table, a remaining single-fd survivor makes assignSubrs fail.  The
second conjunct shows the overflow path the claim describes is graceful
only while some table still has room: two multi-fd survivors against full
globals with a non-full local table are flattened without error. -/
theorem c2_code_bug :
    assignSubrs 1 [⟨[0], 1, 0, false, false, 0⟩]
      [⟨[0, 1], 5, 0, false, true, 0⟩] [[⟨[0], 4, 0, false, false, 0⟩]] [] = none ∧
    assignSubrs 1 [⟨[0, 1], 1, 0, false, false, 0⟩, ⟨[0, 1], 2, 0, false, false, 0⟩]
      [⟨[0, 1], 5, 0, false, true, 0⟩] [[]] [] =
      some ([⟨[0, 1], 5, 0, false, true, 0⟩], [[]],
        [⟨[0, 1], 2, 0, false, false, 0⟩, ⟨[0, 1], 1, 0, false, false, 0⟩]) := by
  decide

/-! ### optimize_charstring, the per-item dynamic program
(pyCompressor.py lines 940-1003) -/

section DPSection

variable {α : Type} [LinearOrderedAddCommMonoid α]

/-- One level of the DP tables: results[i], next_enc_idx[i] and
next_enc_substr[i]. The result lives in WithTop so that the initial
min_option = float("inf") is the top element. -/
structure DPEntry (α : Type) where
  res : WithTop α
  nextIdx : Nat
  nextSub : Option Nat
deriving DecidableEq

/-- Default entry for out-of-range reads (never reached in the pipeline). -/
def dEntry : DPEntry α := ⟨0, 0, none⟩

/-- The accumulated cur_cost from position i up to (excluding) j: the sum
of the cost_map entries of the codes of charstring[i:j]. -/
def tokenSumQ (s : List Nat) (cm : List α) (i j : Nat) : α :=
  ((pySlice s i j).map (fun c => cm.getD c 0)).sum

/-- Cost the DP assigns to the segment charstring[i:j]: the table price
when the slice is in substr_dict with an index different from skip_idx,
otherwise the token-cost sum (both the miss branch and the skip_idx
branch of lines 964-976 charge cur_cost). -/
def segCost (s : List Nat) (cm : List α) (tbl : List Nat → Option (Nat × α))
    (skip : Option Nat) (i j : Nat) : WithTop α :=
  match tbl (pySlice s i j) with
  | some (idx, price) =>
    if some idx ≠ skip then (price : WithTop α) else ((tokenSumQ s cm i j : α) : WithTop α)
  | none => ((tokenSumQ s cm i j : α) : WithTop α)

/-- Substring recorded for segment charstring[i:j]: the table index on a
non-skip hit, otherwise None. -/
def subAt (s : List Nat) (tbl : List Nat → Option (Nat × α)) (skip : Option Nat)
    (i j : Nat) : Option Nat :=
  match tbl (pySlice s i j) with
  | some (idx, _) => if some idx ≠ skip then some idx else none
  | none => none

/-- Results entry for absolute position j read from the level list whose
head is level i+1 (next_enc arrays below the current level). -/
def resBelow (prev : List (DPEntry α)) (i j : Nat) : WithTop α :=
  (prev.getD (j - i - 1) dEntry).res

/-- Candidate option the DP builds at one j (lines 962-976): the table
price plus results[j] on a hit with index different from skip_idx;
cur_cost plus results[j] on a miss; on a skip_idx hit the code asserts
i = 0 and j = n and charges cur_cost plus results[j], the assertion
failure modelled as none. -/
def scanStep (s : List Nat) (cm : List α) (tbl : List Nat → Option (Nat × α))
    (skip : Option Nat) (n i j : Nat) (prev : List (DPEntry α)) (curCost2 : α) :
    Option (WithTop α × Option Nat) :=
  match tbl (pySlice s i j) with
  | some (idx, price) =>
    if some idx ≠ skip then
      some ((price : WithTop α) + resBelow prev i j, some idx)
    else if i = 0 ∧ j = n then
      some ((curCost2 : WithTop α) + resBelow prev i j, none)
    else none
  | none => some ((curCost2 : WithTop α) + resBelow prev i j, none)

/-- Inner loop over j of optimize_charstring (lines 961-981): accumulate
cur_cost, build the candidate option for each j, and keep the strictly
smallest option encountered, so the first j attaining the minimum wins. -/
def scanJ (s : List Nat) (cm : List α) (tbl : List Nat → Option (Nat × α))
    (skip : Option Nat) (n i : Nat) (prev : List (DPEntry α)) :
    List Nat → α → WithTop α → Nat → Option Nat →
    Option (WithTop α × Nat × Option Nat)
  | [], _, best, bestJ, bestS => some (best, bestJ, bestS)
  | j :: js, curCost, best, bestJ, bestS =>
    let curCost2 := curCost + cm.getD (s.getD (j - 1) 0) 0
    match scanStep s cm tbl skip n i j prev curCost2 with
    | none => none
    | some (opt, sub) =>
      if opt < best then scanJ s cm tbl skip n i prev js curCost2 opt j sub
      else scanJ s cm tbl skip n i prev js curCost2 best bestJ bestS

/-- Build the DP levels from the bottom: level n holds results[n] = 0;
level i scans j over i+1..n starting from cur_cost 0, min_option infinity,
min_enc_idx n and min_enc_substr None (lines 953-985). -/
def buildLevels (s : List Nat) (cm : List α) (tbl : List Nat → Option (Nat × α))
    (skip : Option Nat) : Nat → Option (List (DPEntry α))
  | 0 => some [⟨0, s.length, none⟩]
  | k + 1 => do
    let prev ← buildLevels s cm tbl skip k
    let i := s.length - (k + 1)
    let r ← scanJ s cm tbl skip s.length i prev
      (List.range' (i + 1) (s.length - i)) 0 ⊤ s.length none
    pure (⟨r.1, r.2.1, r.2.2⟩ :: prev)

/-- Encoding reconstruction (lines 988-999): walk next_enc_idx from 0,
emitting (position, substring index) whenever next_enc_substr is set.  The
fuel argument bounds the walk; n+1 steps always suffice because every
next_enc_idx strictly increases. -/
def reconstruct (levels : List (DPEntry α)) (n : Nat) : Nat → Nat → List (Nat × Nat)
  | 0, _ => []
  | fuel + 1, cur =>
    if cur < n then
      match (levels.getD cur dEntry).nextSub with
      | some idx => (cur, idx) :: reconstruct levels n fuel (levels.getD cur dEntry).nextIdx
      | none => reconstruct levels n fuel (levels.getD cur dEntry).nextIdx
    else []

/-- optimize_charstring: run the DP and reconstruct the encoding; the
market cost is results[0]. -/
def optimizeCharstring (s : List Nat) (cm : List α) (tbl : List Nat → Option (Nat × α))
    (skip : Option Nat) : Option (List (Nat × Nat) × WithTop α) := do
  let levels ← buildLevels s cm tbl skip s.length
  pure (reconstruct levels s.length (s.length + 1) 0, (levels.getD 0 dEntry).res)

/-- Partition of charstring[i:n] into contiguous segments, given by its
strictly increasing cut points ending at n. -/
def IsCuts (n : Nat) : Nat → List Nat → Prop
  | i, [] => i = n
  | i, j :: rest => i < j ∧ j ≤ n ∧ IsCuts n j rest

/-- Total cost of a partition: the sum of its segment costs. -/
def cutsCost (s : List Nat) (cm : List α) (tbl : List Nat → Option (Nat × α))
    (skip : Option Nat) : Nat → List Nat → WithTop α
  | _, [] => 0
  | i, j :: rest => segCost s cm tbl skip i j + cutsCost s cm tbl skip j rest

/-- Option value the DP considers for continuing from i with first segment
end j, relative to a level list based at level base. -/
def stepCostAt (s : List Nat) (cm : List α) (tbl : List Nat → Option (Nat × α))
    (skip : Option Nat) (L : List (DPEntry α)) (base i j : Nat) : WithTop α :=
  segCost s cm tbl skip i j + (L.getD (j - base) dEntry).res

/-- Helper: extending the accumulated cur_cost by one token. -/
theorem tokenSumQ_succ (s : List Nat) (cm : List α) (i j : Nat)
    (hij : i ≤ j) (hj : j < s.length) :
    tokenSumQ s cm i (j + 1) = tokenSumQ s cm i j + cm.getD (s.getD j 0) 0 := by
  unfold tokenSumQ pySlice
  rw [List.take_succ]
  have hjl : s[j]?.toList = [s.getD j 0] := by
    rw [List.getElem?_eq_getElem hj]
    rw [List.getD_eq_getElem?_getD, List.getElem?_eq_getElem hj]
    rfl
  rw [hjl]
  rw [List.drop_append_of_le_length (by rw [List.length_take]; omega)]
  rw [List.map_append, List.sum_append]
  simp

/-- Helper: segment cost on a table miss. -/
theorem segCost_of_none (s : List Nat) (cm : List α) (tbl : List Nat → Option (Nat × α))
    (skip : Option Nat) (i j : Nat) (htb : tbl (pySlice s i j) = none) :
    segCost s cm tbl skip i j = ((tokenSumQ s cm i j : α) : WithTop α) := by
  rw [segCost, htb]

/-- Helper: segment cost on a non-skip table hit. -/
theorem segCost_of_some_ne (s : List Nat) (cm : List α) (tbl : List Nat → Option (Nat × α))
    (skip : Option Nat) (i j idx : Nat) (price : α)
    (htb : tbl (pySlice s i j) = some (idx, price)) (hsk : some idx ≠ skip) :
    segCost s cm tbl skip i j = (price : WithTop α) := by
  rw [segCost, htb]
  dsimp only
  rw [if_pos hsk]

/-- Helper: segment cost on a skip_idx table hit. -/
theorem segCost_of_some_eq (s : List Nat) (cm : List α) (tbl : List Nat → Option (Nat × α))
    (skip : Option Nat) (i j idx : Nat) (price : α)
    (htb : tbl (pySlice s i j) = some (idx, price)) (hsk : ¬ some idx ≠ skip) :
    segCost s cm tbl skip i j = ((tokenSumQ s cm i j : α) : WithTop α) := by
  rw [segCost, htb]
  dsimp only
  rw [if_neg hsk]

/-- Helper: recorded substring on a table miss. -/
theorem subAt_of_none (s : List Nat) (tbl : List Nat → Option (Nat × α))
    (skip : Option Nat) (i j : Nat) (htb : tbl (pySlice s i j) = none) :
    subAt s tbl skip i j = none := by
  rw [subAt, htb]

/-- Helper: recorded substring on a non-skip table hit. -/
theorem subAt_of_some_ne (s : List Nat) (tbl : List Nat → Option (Nat × α))
    (skip : Option Nat) (i j idx : Nat) (price : α)
    (htb : tbl (pySlice s i j) = some (idx, price)) (hsk : some idx ≠ skip) :
    subAt s tbl skip i j = some idx := by
  rw [subAt, htb]
  dsimp only
  rw [if_pos hsk]

/-- Helper: recorded substring on a skip_idx table hit. -/
theorem subAt_of_some_eq (s : List Nat) (tbl : List Nat → Option (Nat × α))
    (skip : Option Nat) (i j idx : Nat) (price : α)
    (htb : tbl (pySlice s i j) = some (idx, price)) (hsk : ¬ some idx ≠ skip) :
    subAt s tbl skip i j = none := by
  rw [subAt, htb]
  dsimp only
  rw [if_neg hsk]

/-- Helper: a segment cost is never infinite. -/
theorem segCost_lt_top (s : List Nat) (cm : List α) (tbl : List Nat → Option (Nat × α))
    (skip : Option Nat) (i j : Nat) : segCost s cm tbl skip i j < ⊤ := by
  cases htb : tbl (pySlice s i j) with
  | none =>
    rw [segCost_of_none s cm tbl skip i j htb]
    exact WithTop.coe_lt_top _
  | some v =>
    obtain ⟨idx, price⟩ := v
    by_cases hsk : some idx ≠ skip
    · rw [segCost_of_some_ne s cm tbl skip i j idx price htb hsk]
      exact WithTop.coe_lt_top _
    · rw [segCost_of_some_eq s cm tbl skip i j idx price htb hsk]
      exact WithTop.coe_lt_top _

/-- Helper: a partition cost is never infinite. -/
theorem cutsCost_lt_top (s : List Nat) (cm : List α) (tbl : List Nat → Option (Nat × α))
    (skip : Option Nat) : ∀ (cuts : List Nat) (i : Nat),
    cutsCost s cm tbl skip i cuts < ⊤ := by
  intro cuts
  induction cuts with
  | nil =>
    intro i
    rw [cutsCost]
    exact lt_of_le_of_lt le_rfl (WithTop.coe_lt_top 0)
  | cons j rest ih =>
    intro i
    rw [cutsCost]
    exact WithTop.add_lt_top.mpr ⟨segCost_lt_top s cm tbl skip i j, ih j⟩

/-- Correctness package for one DP level i, read from a level list L whose
head is level base: results[i] is a lower bound on every partition cost of
charstring[i:n] and is attained by one, and for i < n the stored
next_enc_idx is the smallest j attaining the minimum of the step options,
with next_enc_substr the substring recorded at that j. -/
def LevelOK (s : List Nat) (cm : List α) (tbl : List Nat → Option (Nat × α))
    (skip : Option Nat) (L : List (DPEntry α)) (base i : Nat) : Prop :=
  (∀ cuts, IsCuts s.length i cuts →
      (L.getD (i - base) dEntry).res ≤ cutsCost s cm tbl skip i cuts) ∧
  (∃ cuts, IsCuts s.length i cuts ∧
      cutsCost s cm tbl skip i cuts = (L.getD (i - base) dEntry).res) ∧
  (i < s.length →
      i < (L.getD (i - base) dEntry).nextIdx ∧
      (L.getD (i - base) dEntry).nextIdx ≤ s.length ∧
      (L.getD (i - base) dEntry).res =
        stepCostAt s cm tbl skip L base i (L.getD (i - base) dEntry).nextIdx ∧
      (L.getD (i - base) dEntry).nextSub =
        subAt s tbl skip i (L.getD (i - base) dEntry).nextIdx ∧
      (∀ j, i < j → j < (L.getD (i - base) dEntry).nextIdx →
        (L.getD (i - base) dEntry).res < stepCostAt s cm tbl skip L base i j) ∧
      (∀ j, i < j → j ≤ s.length →
        (L.getD (i - base) dEntry).res ≤ stepCostAt s cm tbl skip L base i j))

/-- Helper: a successful scanStep returns exactly the segment cost plus
the results entry below, together with the recorded substring. -/
theorem scanStep_eq (s : List Nat) (cm : List α) (tbl : List Nat → Option (Nat × α))
    (skip : Option Nat) (n i j : Nat) (prev : List (DPEntry α)) (curCost2 : α)
    (opt : WithTop α) (sub : Option Nat)
    (hcc : curCost2 = tokenSumQ s cm i j)
    (h : scanStep s cm tbl skip n i j prev curCost2 = some (opt, sub)) :
    opt = stepCostAt s cm tbl skip prev (i + 1) i j ∧ sub = subAt s tbl skip i j := by
  have hres : resBelow prev i j = (prev.getD (j - (i + 1)) dEntry).res := by
    rw [resBelow, Nat.sub_sub]
  rw [scanStep] at h
  cases htb : tbl (pySlice s i j) with
  | none =>
    rw [htb] at h
    dsimp only at h
    simp only [Option.some.injEq, Prod.mk.injEq] at h
    rw [stepCostAt, segCost_of_none s cm tbl skip i j htb,
      subAt_of_none s tbl skip i j htb, ← h.1, ← h.2, hcc, hres]
    exact ⟨rfl, rfl⟩
  | some v =>
    obtain ⟨idx, price⟩ := v
    rw [htb] at h
    dsimp only at h
    by_cases hsk : some idx ≠ skip
    · rw [if_pos hsk] at h
      simp only [Option.some.injEq, Prod.mk.injEq] at h
      rw [stepCostAt, segCost_of_some_ne s cm tbl skip i j idx price htb hsk,
        subAt_of_some_ne s tbl skip i j idx price htb hsk, ← h.1, ← h.2, hres]
      exact ⟨rfl, rfl⟩
    · rw [if_neg hsk] at h
      by_cases hassert : i = 0 ∧ j = n
      · rw [if_pos hassert] at h
        simp only [Option.some.injEq, Prod.mk.injEq] at h
        rw [stepCostAt, segCost_of_some_eq s cm tbl skip i j idx price htb hsk,
          subAt_of_some_eq s tbl skip i j idx price htb hsk, ← h.1, ← h.2, hcc, hres]
        exact ⟨rfl, rfl⟩
      · rw [if_neg hassert] at h
        cases h

/-- Helper: characterization of the inner scan of optimize_charstring.
Starting from a sound partial state (either the initial infinite
min_option or the exact minimum over the already processed j range), a
successful scan over the rest returns the minimum step option over
i+1..n, attained first at the returned index. -/
theorem scanJ_spec (s : List Nat) (cm : List α) (tbl : List Nat → Option (Nat × α))
    (skip : Option Nat) (n i : Nat) (prev : List (DPEntry α))
    (hn : n = s.length) (hin : i < n)
    (hfin : ∀ j, i < j → j ≤ n → stepCostAt s cm tbl skip prev (i + 1) i j < ⊤) :
    ∀ (cnt j0 : Nat) (curCost : α) (best : WithTop α) (bestJ : Nat) (bestS : Option Nat)
      (B : WithTop α) (J : Nat) (Sb : Option Nat),
    i + 1 ≤ j0 → j0 + cnt = n + 1 →
    curCost = tokenSumQ s cm i (j0 - 1) →
    ((best = ⊤ ∧ j0 = i + 1 ∧ bestJ = n ∧ bestS = none) ∨
     (i < bestJ ∧ bestJ < j0 ∧
      best = stepCostAt s cm tbl skip prev (i + 1) i bestJ ∧
      bestS = subAt s tbl skip i bestJ ∧
      (∀ j, i < j → j < bestJ → best < stepCostAt s cm tbl skip prev (i + 1) i j) ∧
      (∀ j, i < j → j < j0 → best ≤ stepCostAt s cm tbl skip prev (i + 1) i j))) →
    scanJ s cm tbl skip n i prev (List.range' j0 cnt) curCost best bestJ bestS =
      some (B, J, Sb) →
    (i < J ∧ J ≤ n ∧
     B = stepCostAt s cm tbl skip prev (i + 1) i J ∧
     Sb = subAt s tbl skip i J ∧
     (∀ j, i < j → j < J → B < stepCostAt s cm tbl skip prev (i + 1) i j) ∧
     (∀ j, i < j → j ≤ n → B ≤ stepCostAt s cm tbl skip prev (i + 1) i j)) := by
  intro cnt
  induction cnt with
  | zero =>
    intro j0 curCost best bestJ bestS B J Sb hj0 hcnt hcc hinv hscan
    have hj0n : j0 = n + 1 := by omega
    simp only [List.range', scanJ, Option.some.injEq, Prod.mk.injEq] at hscan
    obtain ⟨hB, hJ, hS⟩ := hscan
    rcases hinv with ⟨_, h1, _, _⟩ | ⟨h1, h2, h3, h4, h5, h6⟩
    · omega
    · subst hB hJ hS
      exact ⟨h1, by omega, h3, h4, h5, fun j hj hjn => h6 j hj (by omega)⟩
  | succ cnt ih =>
    intro j0 curCost best bestJ bestS B J Sb hj0 hcnt hcc hinv hscan
    have hj0n : j0 ≤ n := by omega
    rw [List.range'_succ] at hscan
    simp only [scanJ] at hscan
    have hcc2 : curCost + cm.getD (s.getD (j0 - 1) 0) 0 = tokenSumQ s cm i j0 := by
      have hj1 : j0 - 1 + 1 = j0 := by omega
      rw [hcc, ← tokenSumQ_succ s cm i (j0 - 1) (by omega) (by omega), hj1]
    cases hstep : scanStep s cm tbl skip n i j0 prev
        (curCost + cm.getD (s.getD (j0 - 1) 0) 0) with
    | none =>
      rw [hstep] at hscan
      cases hscan
    | some v =>
      obtain ⟨opt, sub⟩ := v
      obtain ⟨hopt, hsub⟩ := scanStep_eq s cm tbl skip n i j0 prev _ opt sub hcc2 hstep
      rw [hstep] at hscan
      dsimp only at hscan
      have hoptfin : opt < ⊤ := by
        rw [hopt]
        exact hfin j0 (by omega) hj0n
      by_cases hlt : opt < best
      · rw [if_pos hlt] at hscan
        refine ih (j0 + 1) _ opt j0 sub B J Sb (by omega) (by omega)
          (by rw [hcc2]; congr 1) ?_ hscan
        right
        refine ⟨by omega, by omega, hopt, hsub, ?_, ?_⟩
        · intro j hj hjb
          rcases hinv with ⟨hbt, hj0i, _, _⟩ | ⟨_, _, _, _, _, h6⟩
          · omega
          · exact lt_of_lt_of_le hlt (h6 j hj hjb)
        · intro j hj hjb
          rcases Nat.lt_or_ge j j0 with hle | hge
          · rcases hinv with ⟨hbt, hj0i, _, _⟩ | ⟨_, _, _, _, _, h6⟩
            · omega
            · exact le_of_lt (lt_of_lt_of_le hlt (h6 j hj hle))
          · have : j = j0 := by omega
            subst this
            rw [hopt]
      · rw [if_neg hlt] at hscan
        have hble : best ≤ opt := le_of_not_lt hlt
        refine ih (j0 + 1) _ best bestJ bestS B J Sb (by omega) (by omega)
          (by rw [hcc2]; congr 1) ?_ hscan
        rcases hinv with ⟨hbt, hj0i, _, _⟩ | ⟨h1, h2, h3, h4, h5, h6⟩
        · exfalso
          rw [hbt] at hble
          exact absurd (lt_of_lt_of_le hoptfin hble) (lt_irrefl _)
        · right
          refine ⟨h1, by omega, h3, h4, h5, ?_⟩
          intro j hj hjb
          rcases Nat.lt_or_ge j j0 with hle | hge
          · exact h6 j hj hle
          · have : j = j0 := by omega
            subst this
            rw [← hopt]
            exact hble

/-- Helper: the empty accumulated cost. -/
theorem tokenSumQ_self (s : List Nat) (cm : List α) (i : Nat) :
    tokenSumQ s cm i i = 0 := by
  rw [tokenSumQ, pySlice, List.drop_take]
  simp

/-- Helper: step options relative to a level list extended on top agree
with step options relative to the original list. -/
theorem stepCostAt_cons (s : List Nat) (cm : List α) (tbl : List Nat → Option (Nat × α))
    (skip : Option Nat) (e : DPEntry α) (prev : List (DPEntry α)) (b i j : Nat) (h : b < j) :
    stepCostAt s cm tbl skip (e :: prev) b i j = stepCostAt s cm tbl skip prev (b + 1) i j := by
  rw [stepCostAt, stepCostAt]
  congr 1
  have hj : j - b = (j - (b + 1)) + 1 := by omega
  rw [hj, List.getD_cons_succ]

/-- Helper: level correctness transfers across extending the level list by
a new head level. -/
theorem LevelOK_cons (s : List Nat) (cm : List α) (tbl : List Nat → Option (Nat × α))
    (skip : Option Nat) (e : DPEntry α) (prev : List (DPEntry α)) (b i : Nat)
    (hi : b + 1 ≤ i) (h : LevelOK s cm tbl skip prev (b + 1) i) :
    LevelOK s cm tbl skip (e :: prev) b i := by
  obtain ⟨ha, hb, hc⟩ := h
  have hidx : (e :: prev).getD (i - b) dEntry = prev.getD (i - (b + 1)) dEntry := by
    have hib : i - b = (i - (b + 1)) + 1 := by omega
    rw [hib, List.getD_cons_succ]
  refine ⟨?_, ?_, ?_⟩
  · intro cuts hcuts
    rw [hidx]
    exact ha cuts hcuts
  · obtain ⟨cuts, h1, h2⟩ := hb
    exact ⟨cuts, h1, by rw [hidx]; exact h2⟩
  · intro hin
    obtain ⟨h1, h2, h3, h4, h5, h6⟩ := hc hin
    rw [hidx]
    refine ⟨h1, h2, ?_, h4, ?_, ?_⟩
    · rw [stepCostAt_cons s cm tbl skip e prev b i _ (by omega)]
      exact h3
    · intro j hj hjn
      rw [stepCostAt_cons s cm tbl skip e prev b i j (by omega)]
      exact h5 j hj hjn
    · intro j hj hjn
      rw [stepCostAt_cons s cm tbl skip e prev b i j (by omega)]
      exact h6 j hj hjn

/-- Helper: correctness of the built DP levels: each level holds the
minimum partition cost of its suffix, attained, with the smallest
minimizing j recorded. -/
theorem buildLevels_spec (s : List Nat) (cm : List α) (tbl : List Nat → Option (Nat × α))
    (skip : Option Nat) :
    ∀ (k : Nat) (L : List (DPEntry α)), k ≤ s.length →
    buildLevels s cm tbl skip k = some L →
    L.length = k + 1 ∧
    ∀ i, s.length - k ≤ i → i ≤ s.length →
      LevelOK s cm tbl skip L (s.length - k) i := by
  intro k
  induction k with
  | zero =>
    intro L _ hb
    rw [buildLevels] at hb
    simp only [Option.some.injEq] at hb
    subst hb
    refine ⟨rfl, ?_⟩
    intro i hi1 hi2
    have hieq : i = s.length := by omega
    subst hieq
    rw [LevelOK]
    simp only [Nat.sub_zero, Nat.sub_self, List.getD_cons_zero]
    refine ⟨?_, ?_, ?_⟩
    · intro cuts hcuts
      cases cuts with
      | nil =>
        rw [cutsCost]
      | cons j rest =>
        have hcuts2 : s.length < j ∧ j ≤ s.length ∧ IsCuts s.length j rest := hcuts
        omega
    · refine ⟨[], rfl, ?_⟩
      rw [cutsCost]
    · intro hlt
      exact absurd hlt (lt_irrefl _)
  | succ k ih =>
    intro L hk hb
    rw [buildLevels] at hb
    simp only [bind, Option.bind_eq_some] at hb
    obtain ⟨prev, hprev, hb⟩ := hb
    obtain ⟨r, hscan, hb⟩ := hb
    simp only [Option.pure_def, Option.some.injEq] at hb
    obtain ⟨hlen, hlev⟩ := ih prev (by omega) hprev
    have hbase : s.length - k = s.length - (k + 1) + 1 := by omega
    set i0 := s.length - (k + 1) with hi0
    have hi0n : i0 < s.length := by omega
    have hfin : ∀ j, i0 < j → j ≤ s.length →
        stepCostAt s cm tbl skip prev (i0 + 1) i0 j < ⊤ := by
      intro j hj hjn
      rw [stepCostAt]
      refine WithTop.add_lt_top.mpr ⟨segCost_lt_top s cm tbl skip i0 j, ?_⟩
      obtain ⟨_, ⟨cuts, _, hcost⟩, _⟩ := hlev j (by omega) hjn
      rw [hbase] at hcost
      rw [← hcost]
      exact cutsCost_lt_top s cm tbl skip cuts j
    obtain ⟨hJ1, hJ2, hB, hSb, hmin, hle⟩ :=
      scanJ_spec s cm tbl skip s.length i0 prev rfl hi0n hfin
        (s.length - i0) (i0 + 1) 0 ⊤ s.length none r.1 r.2.1 r.2.2
        (by omega) (by omega)
        (by have h11 : i0 + 1 - 1 = i0 := by omega
            rw [h11, tokenSumQ_self])
        (Or.inl ⟨rfl, rfl, rfl, rfl⟩)
        (by rw [hscan])
    subst hb
    refine ⟨by simp [hlen], ?_⟩
    intro i hi1 hi2
    rcases Nat.lt_or_ge i0 i with higt | hieq
    · exact LevelOK_cons s cm tbl skip _ prev i0 i (by omega)
        (by rw [← hbase]; exact hlev i (by omega) hi2)
    · have hii : i = i0 := by omega
      subst hii
      rw [LevelOK]
      have hidx : i0 - i0 = 0 := by omega
      rw [hidx, List.getD_cons_zero]
      refine ⟨?_, ?_, ?_⟩
      · intro cuts hcuts
        cases cuts with
        | nil =>
          have hcuts2 : i0 = s.length := hcuts
          omega
        | cons j rest =>
          have hcuts2 : i0 < j ∧ j ≤ s.length ∧ IsCuts s.length j rest := hcuts
          obtain ⟨hij, hjn, hrest⟩ := hcuts2
          rw [cutsCost]
          have step1 : r.1 ≤ stepCostAt s cm tbl skip prev (i0 + 1) i0 j :=
            hle j hij hjn
          rw [stepCostAt] at step1
          obtain ⟨haj, _, _⟩ := hlev j (by omega) hjn
          rw [hbase] at haj
          calc r.1 ≤ segCost s cm tbl skip i0 j +
                (prev.getD (j - (i0 + 1)) dEntry).res := step1
            _ ≤ segCost s cm tbl skip i0 j + cutsCost s cm tbl skip j rest :=
                add_le_add_left (haj rest hrest) _
      · obtain ⟨_, ⟨cutsJ, hcJ1, hcJ2⟩, _⟩ := hlev r.2.1 (by omega) hJ2
        rw [hbase] at hcJ2
        refine ⟨r.2.1 :: cutsJ, ?_, ?_⟩
        · exact ⟨hJ1, hJ2, hcJ1⟩
        · rw [cutsCost, hcJ2, hB, stepCostAt]
      · intro _
        refine ⟨hJ1, hJ2, ?_, hSb, ?_, ?_⟩
        · rw [stepCostAt_cons s cm tbl skip _ prev i0 i0 r.2.1 (by omega)]
          exact hB
        · intro j hj hjn
          rw [stepCostAt_cons s cm tbl skip _ prev i0 i0 j (by omega)]
          exact hmin j hj hjn
        · intro j hj hjn
          rw [stepCostAt_cons s cm tbl skip _ prev i0 i0 j (by omega)]
          exact hle j hj hjn

/-- C4: whenever optimize_charstring returns, its market_cost is the
minimum over all partitions of the charstring into contiguous segments of
the summed segment costs, where a segment found in the substring table
with index different from skip_idx costs its table price and any other
segment costs the sum of its token costs; and at every position the DP
records the smallest segment end j attaining the minimum (strict
improvement comparison scanning j upward). -/
theorem c4_optimize_dp (s : List Nat) (cm : List α) (tbl : List Nat → Option (Nat × α))
    (skip : Option Nat) (levels : List (DPEntry α)) (enc : List (Nat × Nat)) (mc : WithTop α)
    (hlev : buildLevels s cm tbl skip s.length = some levels)
    (hopt : optimizeCharstring s cm tbl skip = some (enc, mc)) :
    mc = (levels.getD 0 dEntry).res ∧
    ((∀ cuts, IsCuts s.length 0 cuts → mc ≤ cutsCost s cm tbl skip 0 cuts) ∧
     (∃ cuts, IsCuts s.length 0 cuts ∧ cutsCost s cm tbl skip 0 cuts = mc)) ∧
    (∀ i, i ≤ s.length → LevelOK s cm tbl skip levels 0 i) := by
  have hmc : mc = (levels.getD 0 dEntry).res := by
    rw [optimizeCharstring] at hopt
    simp only [bind, Option.bind_eq_some] at hopt
    obtain ⟨lv, hlv, hopt⟩ := hopt
    rw [hlev] at hlv
    obtain rfl : levels = lv := Option.some.inj hlv
    simp only [Option.pure_def, Option.some.injEq, Prod.mk.injEq] at hopt
    exact hopt.2.symm
  obtain ⟨_, hall⟩ := buildLevels_spec s cm tbl skip s.length levels (le_refl _) hlev
  have hz : s.length - s.length = 0 := Nat.sub_self _
  rw [hz] at hall
  have h0 := hall 0 (Nat.zero_le _) (Nat.zero_le _)
  obtain ⟨h0a, h0b, _⟩ := h0
  refine ⟨hmc, ⟨?_, ?_⟩, fun i hi2 => hall i (Nat.zero_le _) hi2⟩
  · intro cuts hcuts
    rw [hmc]
    exact h0a cuts hcuts
  · obtain ⟨cuts, hc1, hc2⟩ := h0b
    exact ⟨cuts, hc1, by rw [hmc]; exact hc2⟩

/-- Helper: length of a python slice with bounds in range. -/
theorem pySlice_length {α : Type} (l : List α) (i j : Nat) (hj : j ≤ l.length) :
    (pySlice l i j).length = j - i := by
  rw [pySlice, List.length_drop, List.length_take]
  omega

/-- Helper: when the only table key carrying index k is the whole
charstring, any slice found in the table with index k is the full range. -/
theorem slice_skip_full (s : List Nat) (tbl : List Nat → Option (Nat × α)) (k : Nat)
    (htbl : ∀ v i p, tbl v = some (i, p) → i = k → v = s)
    (i j : Nat) (hij : i < j) (hjn : j ≤ s.length) (p : α)
    (htb : tbl (pySlice s i j) = some (k, p)) : i = 0 ∧ j = s.length := by
  have hv : pySlice s i j = s := htbl (pySlice s i j) k p htb rfl
  have hlen : (pySlice s i j).length = j - i := pySlice_length s i j hjn
  rw [hv] at hlen
  omega

/-- Helper: under the skip-safety table hypothesis the per-j step never
hits the failing assertion. -/
theorem scanStep_isSome (s : List Nat) (cm : List α) (tbl : List Nat → Option (Nat × α))
    (k : Nat) (htbl : ∀ v i p, tbl v = some (i, p) → i = k → v = s)
    (n i j : Nat) (prev : List (DPEntry α)) (curCost2 : α)
    (hn : n = s.length) (hij : i < j) (hjn : j ≤ n) :
    (scanStep s cm tbl (some k) n i j prev curCost2).isSome := by
  rw [scanStep]
  cases htb : tbl (pySlice s i j) with
  | none => rfl
  | some v =>
    obtain ⟨idx, price⟩ := v
    dsimp only
    by_cases hsk : some idx ≠ some k
    · rw [if_pos hsk]
      rfl
    · have hidx : idx = k := by
        push_neg at hsk
        exact Option.some.inj hsk
      subst hidx
      obtain ⟨h0, hn2⟩ := slice_skip_full s tbl idx htbl i j hij (by omega) price htb
      rw [if_neg hsk, if_pos ⟨h0, by omega⟩]
      rfl

/-- Helper: under the skip-safety table hypothesis the inner scan always
returns. -/
theorem scanJ_isSome (s : List Nat) (cm : List α) (tbl : List Nat → Option (Nat × α))
    (k : Nat) (htbl : ∀ v i p, tbl v = some (i, p) → i = k → v = s)
    (n i : Nat) (prev : List (DPEntry α)) (hn : n = s.length) :
    ∀ (js : List Nat) (curCost : α) (best : WithTop α) (bestJ : Nat) (bestS : Option Nat),
    (∀ j ∈ js, i < j ∧ j ≤ n) →
    (scanJ s cm tbl (some k) n i prev js curCost best bestJ bestS).isSome := by
  intro js
  induction js with
  | nil => intro curCost best bestJ bestS _; rfl
  | cons j js ih =>
    intro curCost best bestJ bestS hjs
    rw [scanJ]
    obtain ⟨hij, hjn⟩ := hjs j (List.mem_cons_self j js)
    have hs := scanStep_isSome s cm tbl k htbl n i j prev
      (curCost + cm.getD (s.getD (j - 1) 0) 0) hn hij hjn
    cases hstep : scanStep s cm tbl (some k) n i j prev
        (curCost + cm.getD (s.getD (j - 1) 0) 0) with
    | none => rw [hstep] at hs; cases hs
    | some v =>
      obtain ⟨opt, sub⟩ := v
      dsimp only
      by_cases hlt : opt < best
      · rw [if_pos hlt]
        exact ih _ _ _ _ (fun j2 hj2 => hjs j2 (List.mem_cons_of_mem j hj2))
      · rw [if_neg hlt]
        exact ih _ _ _ _ (fun j2 hj2 => hjs j2 (List.mem_cons_of_mem j hj2))

/-- Helper: under the skip-safety table hypothesis the whole DP build
succeeds (the assertion at line 970 never fails). -/
theorem buildLevels_isSome (s : List Nat) (cm : List α) (tbl : List Nat → Option (Nat × α))
    (k : Nat) (htbl : ∀ v i p, tbl v = some (i, p) → i = k → v = s) :
    ∀ (m : Nat), m ≤ s.length → (buildLevels s cm tbl (some k) m).isSome := by
  intro m
  induction m with
  | zero => intro _; rfl
  | succ m ih =>
    intro hm
    cases hprev : buildLevels s cm tbl (some k) m with
    | none =>
      have hi := ih (by omega)
      rw [hprev] at hi
      cases hi
    | some prev =>
      have hs := scanJ_isSome s cm tbl k htbl s.length (s.length - (m + 1)) prev rfl
        (List.range' (s.length - (m + 1) + 1) (s.length - (s.length - (m + 1))))
        0 ⊤ s.length none
        (by
          intro j hj
          rw [List.mem_range'_1] at hj
          omega)
      cases hscan : scanJ s cm tbl (some k) s.length (s.length - (m + 1)) prev
          (List.range' (s.length - (m + 1) + 1) (s.length - (s.length - (m + 1))))
          0 ⊤ s.length none with
      | none => rw [hscan] at hs; cases hs
      | some r =>
        have heq : buildLevels s cm tbl (some k) (m + 1) =
            some (⟨r.1, r.2.1, r.2.2⟩ :: prev) := by
          rw [buildLevels, hprev]
          show (scanJ s cm tbl (some k) s.length (s.length - (m + 1)) prev
            (List.range' (s.length - (m + 1) + 1) (s.length - (s.length - (m + 1))))
            0 ⊤ s.length none).bind _ = _
          rw [hscan]
          rfl
        rw [heq]
        rfl

/-- Helper: every substring index the reconstruction emits is the
next_enc_substr of some level strictly before n. -/
theorem reconstruct_mem (levels : List (DPEntry α)) (n : Nat) :
    ∀ (fuel cur pos idx : Nat), (pos, idx) ∈ reconstruct levels n fuel cur →
    ∃ c, c < n ∧ (levels.getD c dEntry).nextSub = some idx := by
  intro fuel
  induction fuel with
  | zero => intro cur pos idx h; cases h
  | succ fuel ih =>
    intro cur pos idx h
    rw [reconstruct] at h
    by_cases hcur : cur < n
    · rw [if_pos hcur] at h
      cases hsub : (levels.getD cur dEntry).nextSub with
      | none =>
        rw [hsub] at h
        exact ih _ pos idx h
      | some idx2 =>
        rw [hsub] at h
        rcases List.mem_cons.mp h with heq | hmem
        · obtain ⟨h1, h2⟩ := Prod.mk.injEq _ _ _ _ ▸ heq
          exact ⟨cur, hcur, by rw [hsub, h2]⟩
        · exact ih _ pos idx hmem
    · rw [if_neg hcur] at h
      cases h

/-- Helper: a recorded substring is never the skip index. -/
theorem subAt_ne_skip (s : List Nat) (tbl : List Nat → Option (Nat × α))
    (skip : Option Nat) (i j idx : Nat)
    (h : subAt s tbl skip i j = some idx) : some idx ≠ skip := by
  rw [subAt] at h
  cases htb : tbl (pySlice s i j) with
  | none => rw [htb] at h; cases h
  | some v =>
    obtain ⟨idx2, price⟩ := v
    rw [htb] at h
    dsimp only at h
    by_cases hsk : some idx2 ≠ skip
    · rw [if_pos hsk] at h
      cases h
      exact hsk
    · rw [if_neg hsk] at h
      cases h

/-- C7: when a substring s is optimized with skip_idx set to its own table
index k (so k is carried only by the key s itself), every slice of s found
in the table with index k is the full slice from 0 to len(s), hence the
assertion at line 970 never fails, optimize_charstring succeeds, and the
returned encoding contains no call to s itself. -/
theorem c7_no_self_call (s : List Nat) (cm : List α) (tbl : List Nat → Option (Nat × α))
    (k : Nat) (htbl : ∀ v i p, tbl v = some (i, p) → i = k → v = s) :
    (∀ i j idx p, i < j → j ≤ s.length → tbl (pySlice s i j) = some (idx, p) →
      idx = k → i = 0 ∧ j = s.length) ∧
    (∃ enc mc, optimizeCharstring s cm tbl (some k) = some (enc, mc) ∧
      ∀ pi ∈ enc, pi.2 ≠ k) := by
  constructor
  · intro i j idx p hij hjn htb hidx
    subst hidx
    exact slice_skip_full s tbl idx htbl i j hij hjn p htb
  · have hbuild := buildLevels_isSome s cm tbl k htbl s.length (le_refl _)
    cases hlev : buildLevels s cm tbl (some k) s.length with
    | none => rw [hlev] at hbuild; cases hbuild
    | some levels =>
      refine ⟨reconstruct levels s.length (s.length + 1) 0,
        (levels.getD 0 dEntry).res, ?_, ?_⟩
      · rw [optimizeCharstring, hlev]
        rfl
      · intro pi hpi
        obtain ⟨pos, idx⟩ := pi
        obtain ⟨c, hc, hsub⟩ := reconstruct_mem levels s.length (s.length + 1) 0 pos idx hpi
        obtain ⟨_, hall⟩ := buildLevels_spec s cm tbl (some k) s.length levels (le_refl _) hlev
        rw [Nat.sub_self] at hall
        have hok := hall c (by omega) (by omega)
        obtain ⟨_, _, hc3⟩ := hok
        obtain ⟨_, _, _, hns, _, _⟩ := hc3 (by omega)
        rw [Nat.sub_zero] at hns
        rw [hns] at hsub
        have hne := subAt_ne_skip s tbl (some k) c _ idx hsub
        intro hk
        have hk2 : idx = k := hk
        exact hne (by rw [hk2])

end DPSection

/-- C4 witness: the DP over the integers (an instance of the ordered
monoid of costs) on a concrete charstring with one priced substring in
the table; market cost 2 is the partition minimum. -/
theorem c4_witness :
    (buildLevels [0, 1, 0, 1] [1, 1]
        (fun v => if v = [0, 1] then some (0, (1 : ℤ)) else none) none
        (List.length ([0, 1, 0, 1] : List Nat)) =
      some [⟨2, 2, some 0⟩, ⟨2, 2, none⟩, ⟨1, 4, some 0⟩, ⟨1, 4, none⟩,
        ⟨0, 4, none⟩] ∧
     optimizeCharstring [0, 1, 0, 1] [1, 1]
        (fun v => if v = [0, 1] then some (0, (1 : ℤ)) else none) none =
      some ([(0, 0), (2, 0)], 2)) ∧
    ((2 : WithTop ℤ) =
      (([⟨2, 2, some 0⟩, ⟨2, 2, none⟩, ⟨1, 4, some 0⟩, ⟨1, 4, none⟩,
        ⟨0, 4, none⟩] : List (DPEntry ℤ)).getD 0 dEntry).res ∧
     ((∀ cuts, IsCuts (List.length ([0, 1, 0, 1] : List Nat)) 0 cuts →
        (2 : WithTop ℤ) ≤ cutsCost [0, 1, 0, 1] [1, 1]
          (fun v => if v = [0, 1] then some (0, (1 : ℤ)) else none) none 0 cuts) ∧
      (∃ cuts, IsCuts (List.length ([0, 1, 0, 1] : List Nat)) 0 cuts ∧
        cutsCost [0, 1, 0, 1] [1, 1]
          (fun v => if v = [0, 1] then some (0, (1 : ℤ)) else none) none 0 cuts =
          (2 : WithTop ℤ))) ∧
     (∀ i, i ≤ List.length ([0, 1, 0, 1] : List Nat) →
        LevelOK [0, 1, 0, 1] [1, 1]
          (fun v => if v = [0, 1] then some (0, (1 : ℤ)) else none) none
          [⟨2, 2, some 0⟩, ⟨2, 2, none⟩, ⟨1, 4, some 0⟩, ⟨1, 4, none⟩,
            ⟨0, 4, none⟩] 0 i)) :=
  ⟨⟨by decide, by decide⟩,
   c4_optimize_dp [0, 1, 0, 1] [1, 1]
     (fun v => if v = [0, 1] then some (0, (1 : ℤ)) else none) none
     [⟨2, 2, some 0⟩, ⟨2, 2, none⟩, ⟨1, 4, some 0⟩, ⟨1, 4, none⟩, ⟨0, 4, none⟩]
     [(0, 0), (2, 0)] 2 (by decide) (by decide)⟩

/-- C7 witness: a substring present in its own table at index 7, optimized
with skip_idx 7: the optimization succeeds and never calls index 7. -/
theorem c7_witness :
    (∀ (v : List Nat) (i : Nat) (p : ℤ),
        (if v = [0, 1] then some (7, (3 : ℤ)) else none) = some (i, p) → i = 7 →
        v = [0, 1]) ∧
    ((∀ i j idx p, i < j → j ≤ ([0, 1] : List Nat).length →
        (fun v => if v = [0, 1] then some (7, (3 : ℤ)) else none)
          (pySlice [0, 1] i j) = some (idx, p) →
        idx = 7 → i = 0 ∧ j = ([0, 1] : List Nat).length) ∧
     (∃ enc mc, optimizeCharstring [0, 1] [1, 1]
          (fun v => if v = [0, 1] then some (7, (3 : ℤ)) else none) (some 7) =
            some (enc, mc) ∧
        ∀ pi ∈ enc, pi.2 ≠ 7)) :=
  have htbl : ∀ (v : List Nat) (i : Nat) (p : ℤ),
      (if v = [0, 1] then some (7, (3 : ℤ)) else none) = some (i, p) → i = 7 →
      v = [0, 1] := by
    intro v i p h1 _
    by_cases hv : v = [0, 1]
    · exact hv
    · simp [hv] at h1
  ⟨htbl,
   c7_no_self_call [0, 1] [1, 1]
     (fun v => if v = [0, 1] then some (7, (3 : ℤ)) else none) 7 htbl⟩


/-! ### Compreffor.update_program and semantic equivalence of emission
(pyCompressor.py lines 830-852 and 877-915) -/

/-- Call operator tokens, forbidden in source programs (assert at line
274) and introduced only by update_program. -/
def isCallTok : Tok → Bool
  | Tok.str s => s = "callsubr" || s = "callgsubr"
  | _ => false

/-- Normalization of a python slice endpoint for a list of length n:
negative indices count from the end, and the result clamps into [0, n]. -/
def sliceIndex (n : Nat) (i : Int) : Nat :=
  if i < 0 then ((n : Int) + i).toNat else min i.toNat n

/-- Python slice assignment l[a:b] = repl; when b normalizes below a the
replacement is inserted at a. -/
def setSlice (l : List Tok) (a b : Int) (repl : List Tok) : List Tok :=
  l.take (sliceIndex l.length a) ++ repl ++
    l.drop (max (sliceIndex l.length a) (sliceIndex l.length b))

/-- State of a CandidateSubr read by update_program and the emission
loops: body length, body value mapped back to tokens, the flatten flag,
the emitted _program (None when the attribute was never set), the table
_position (None when missing, asserted at line 900), the _global flag and
the reachable fd set. -/
structure CSubr where
  length : Nat
  valueToks : List Tok
  flatten : Bool
  prog : Option (List Tok)
  position : Option Int
  isGlobal : Bool
  fdidx : List Nat
deriving DecidableEq, Repr

/-- Replacement block update_program splices for one encoding item (lines
896-913): the flattened body subr._program for flattened subrs (a missing
attribute raises, modelled none); otherwise the two tokens
[position - bias, call operator], asserting the position exists and, for a
local call, that fdidx is a one-element list matching the fd context, with
the local bias looked up at fdidx[0] (IndexError modelled none). -/
def replacementFor (gbias : Int) (lbias : List Int) (fd : Option Nat) (sub : CSubr) :
    Option (List Tok) :=
  if sub.flatten then sub.prog
  else
    match sub.position with
    | none => none
    | some pos =>
      if sub.isGlobal then some [Tok.num (pos - gbias), Tok.str "callgsubr"]
      else
        match sub.fdidx with
        | [j] =>
          if fd = none ∨ fd = some j then
            match lbias.get? j with
            | some b => some [Tok.num (pos - b), Tok.str "callsubr"]
            | none => none
          else none
        | _ => none

/-- Loop body of update_program: apply each encoding item in order,
tracking the offset drift caused by earlier splices (lines 892-914). -/
def updateGo (gbias : Int) (lbias : List Int) (fd : Option Nat) :
    List Tok → Int → List (Nat × CSubr) → Option (List Tok)
  | prog, _, [] => some prog
  | prog, off, (start, sub) :: rest =>
    match replacementFor gbias lbias fd sub with
    | none => none
    | some rep =>
      updateGo gbias lbias fd
        (setSlice prog ((start : Int) - off) ((start : Int) + sub.length - off) rep)
        (off + sub.length - rep.length) rest

/-- Compreffor.update_program on a collapsed token program. -/
def updateProgram (program : List Tok) (encoding : List (Nat × CSubr))
    (gbias : Int) (lbias : List Int) (fd : Option Nat) : Option (List Tok) :=
  updateGo gbias lbias fd program 0 encoding

/-- Omission of a trailing return operator from a subroutine body. -/
def dropTrailingReturn (l : List Tok) : List Tok :=
  match l.getLast? with
  | some (Tok.str s) => if s = "return" then l.dropLast else l
  | _ => l

/-- Recursive substitution of every callsubr/callgsubr call by the body of
the referenced subroutine, omitting its trailing return, as the claim
describes.  The resolver maps (global?, operand) to the referenced
emitted body; fuel bounds the substitution depth; a call operator without
its integer operand cannot be resolved (none). -/
def inlineCalls (res : Bool → Int → Option (List Tok)) :
    Nat → List Tok → Option (List Tok)
  | 0, _ => none
  | _ + 1, [] => some []
  | f + 1, Tok.num k :: Tok.str s :: rest2 =>
    if s = "callsubr" || s = "callgsubr" then do
      let body ← res (s = "callgsubr") k
      let bexp ← inlineCalls res f (dropTrailingReturn body)
      let rexp ← inlineCalls res (f + 1) rest2
      pure (bexp ++ rexp)
    else (inlineCalls res (f + 1) (Tok.str s :: rest2)).map (fun l => Tok.num k :: l)
  | f + 1, t :: rest =>
    if isCallTok t then none
    else (inlineCalls res (f + 1) rest).map (fun l => t :: l)
termination_by f toks => (f, toks.length)

/-- Wellformedness of an encoding with respect to a program, from cursor
c: items sorted by start at or after the cursor, each segment within
bounds, and each segment slice equal to the item value tokens. -/
def wfEnc (p : List Tok) : Nat → List (Nat × CSubr) → Bool
  | _, [] => true
  | c, (start, sub) :: rest =>
    decide (c ≤ start) && decide (start + sub.length ≤ p.length) &&
    decide ((p.drop start).take sub.length = sub.valueToks) &&
    wfEnc p (start + sub.length) rest

/-- Expected output of update_program: each gap of the program kept, each
segment replaced by its replacement block. -/
def spliceAll (p : List Tok) (gbias : Int) (lbias : List Int) (fd : Option Nat) :
    Nat → List (Nat × CSubr) → Option (List Tok)
  | c, [] => some (p.drop c)
  | c, (start, sub) :: rest => do
      let rep ← replacementFor gbias lbias fd sub
      let tail ← spliceAll p gbias lbias fd (start + sub.length) rest
      pure ((p.drop c).take (start - c) ++ rep ++ tail)

/-- Condition that a token list does not begin with a call operator, so
that inlining distributes over concatenation at its left edge. -/
def headNotCall : List Tok → Prop
  | [] => True
  | t :: _ => isCallTok t = false

/-- Shape condition: the list does not begin with a call sequence
(an integer operand followed by a call operator). -/
def noCallShape (t : Tok) (rest : List Tok) : Prop :=
  ∀ k s rest2, t = Tok.num k → rest = Tok.str s :: rest2 →
    (s = "callsubr" || s = "callgsubr") = false

/-- Decidable test for a two-token call sequence head. -/
def isCallShape (t1 t2 : Tok) : Bool :=
  match t1, t2 with
  | Tok.num _, Tok.str s => s = "callsubr" || s = "callgsubr"
  | _, _ => false

/-- Helper: appending preserves the no-leading-call condition. -/
theorem headNotCall_append (a b : List Tok) (ha : headNotCall a) (hb : headNotCall b) :
    headNotCall (a ++ b) := by
  cases a with
  | nil => simpa using hb
  | cons t r => exact ha

/-- Helper: inlining the empty program yields the empty program. -/
theorem inline_nil (res : Bool → Int → Option (List Tok)) (f : Nat) :
    inlineCalls res (f + 1) [] = some [] := by
  simp [inlineCalls]

/-- Helper: a program headed by a bare call operator cannot be inlined
(the operand token is missing). -/
theorem inline_cons_call (res : Bool → Int → Option (List Tok)) (f : Nat) (t : Tok)
    (rest : List Tok) (ht : isCallTok t = true) :
    inlineCalls res f (t :: rest) = none := by
  match f with
  | 0 => simp [inlineCalls]
  | f + 1 =>
    match t, ht with
    | Tok.str s, ht => simp [inlineCalls, ht]

/-- Helper: unfolding of inlineCalls on a call sequence. -/
theorem inline_cons_callop (res : Bool → Int → Option (List Tok)) (f : Nat) (k : Int)
    (s : String) (rest : List Tok) (hs : (s = "callsubr" || s = "callgsubr") = true) :
    inlineCalls res (f + 1) (Tok.num k :: Tok.str s :: rest) =
      (res (s = "callgsubr") k).bind (fun body =>
        (inlineCalls res f (dropTrailingReturn body)).bind (fun bexp =>
          (inlineCalls res (f + 1) rest).bind (fun rexp => some (bexp ++ rexp)))) := by
  simp only [inlineCalls, hs]
  simp [bind]

/-- Helper: unfolding of inlineCalls on a non-call head token. -/
theorem inline_cons_noncall (res : Bool → Int → Option (List Tok)) (f : Nat) (t : Tok)
    (rest : List Tok) (ht : isCallTok t = false) (hshape : noCallShape t rest) :
    inlineCalls res (f + 1) (t :: rest) =
      (inlineCalls res (f + 1) rest).map (fun l => t :: l) := by
  match t with
  | Tok.num k =>
    match rest with
    | [] => simp [inlineCalls, isCallTok]
    | Tok.str s :: rest2 =>
      have hs := hshape k s rest2 rfl rfl
      simp only [inlineCalls, hs]
      simp
    | Tok.num k2 :: rest2 => simp [inlineCalls, isCallTok]
    | Tok.real k2 :: rest2 => simp [inlineCalls, isCallTok]
    | Tok.pair a b :: rest2 => simp [inlineCalls, isCallTok]
  | Tok.str s => simp [inlineCalls, ht]
  | Tok.real k => simp [inlineCalls, isCallTok]
  | Tok.pair a b => simp [inlineCalls, isCallTok]

/-- Helper: a successfully inlined program does not begin with a bare call
operator. -/
theorem headNotCall_of_inline (res : Bool → Int → Option (List Tok)) (f : Nat)
    (xs out : List Tok) (h : inlineCalls res f xs = some out) : headNotCall xs := by
  cases xs with
  | nil => trivial
  | cons t rest =>
    show isCallTok t = false
    cases hc : isCallTok t with
    | false => rfl
    | true => rw [inline_cons_call res f t rest hc] at h; cases h

/-- Helper: inlining is the identity on programs without call operators. -/
theorem inline_gap (res : Bool → Int → Option (List Tok)) :
    ∀ (xs : List Tok), (∀ t ∈ xs, isCallTok t = false) →
    ∀ f, inlineCalls res (f + 1) xs = some xs := by
  intro xs
  induction xs with
  | nil => intro _ f; simp [inlineCalls]
  | cons t rest ih =>
    intro h f
    have ht : isCallTok t = false := h t (by simp)
    have hrest : ∀ u ∈ rest, isCallTok u = false := fun u hu => h u (by simp [hu])
    have hshape : noCallShape t rest := by
      intro k s rest2 hk hr
      have hs := hrest (Tok.str s) (by rw [hr]; simp)
      simpa [isCallTok] using hs
    rw [inline_cons_noncall res f t rest ht hshape, ih hrest f]
    rfl

/-- Helper: inlining distributes over concatenation when the right part
does not begin with a bare call operator. -/
theorem inline_append (res : Bool → Int → Option (List Tok)) (f : Nat) :
    ∀ (n : Nat) (xs ys : List Tok), xs.length ≤ n → headNotCall ys →
      inlineCalls res (f + 1) (xs ++ ys) =
        (inlineCalls res (f + 1) xs).bind (fun a =>
          (inlineCalls res (f + 1) ys).map (fun b => a ++ b)) := by
  intro n
  induction n with
  | zero =>
    intro xs ys hlen hy
    have hx : xs = [] := List.length_eq_zero.mp (Nat.le_zero.mp hlen)
    subst hx
    rw [List.nil_append, inline_nil]
    cases hys : inlineCalls res (f + 1) ys <;> simp [hys]
  | succ n ih =>
    intro xs ys hlen hy
    match xs with
    | [] =>
      rw [List.nil_append, inline_nil]
      cases hys : inlineCalls res (f + 1) ys <;> simp [hys]
    | [t] =>
      cases hct : isCallTok t with
      | true =>
        rw [show ([t] ++ ys) = t :: ys from rfl, inline_cons_call res (f+1) t ys hct,
          inline_cons_call res (f+1) t [] hct]
        rfl
      | false =>
        have hshape : noCallShape t ys := by
          intro k s rest2 hk hr
          rw [hr] at hy
          simpa [headNotCall, isCallTok] using hy
        have h1 : inlineCalls res (f+1) (t :: ys) =
            (inlineCalls res (f+1) ys).map (fun l => t :: l) :=
          inline_cons_noncall res f t ys hct hshape
        have h2 : inlineCalls res (f+1) [t] = some [t] := by
          rw [inline_cons_noncall res f t [] hct (by intro k s r2 hk hr; cases hr),
            inline_nil]
          rfl
        rw [show ([t] ++ ys) = t :: ys from rfl, h1, h2]
        cases hys : inlineCalls res (f + 1) ys <;> simp [hys]
    | t1 :: t2 :: rest2 =>
      cases hcs : isCallShape t1 t2 with
      | true =>
        match t1, t2, hcs with
        | Tok.num k, Tok.str s, hcs =>
          have hs : (s = "callsubr" || s = "callgsubr") = true := by
            simpa [isCallShape] using hcs
          have hl : rest2.length ≤ n := by
            simp only [List.length_cons] at hlen; omega
          have heq := ih rest2 ys hl hy
          rw [show ((Tok.num k :: Tok.str s :: rest2) ++ ys) =
            Tok.num k :: Tok.str s :: (rest2 ++ ys) from rfl]
          rw [inline_cons_callop res f k s (rest2 ++ ys) hs,
            inline_cons_callop res f k s rest2 hs, heq]
          cases hb : res (s = "callgsubr") k with
          | none => rfl
          | some body =>
            cases hbe : inlineCalls res f (dropTrailingReturn body) with
            | none => simp [hbe]
            | some bexp =>
              cases hr2 : inlineCalls res (f + 1) rest2 with
              | none => simp [hbe, hr2]
              | some a =>
                cases hys : inlineCalls res (f + 1) ys <;> simp [hbe, hr2, hys]
      | false =>
        cases hct : isCallTok t1 with
        | true =>
          rw [show ((t1 :: t2 :: rest2) ++ ys) = t1 :: (t2 :: rest2 ++ ys) from rfl,
            inline_cons_call res (f+1) t1 _ hct, inline_cons_call res (f+1) t1 _ hct]
          rfl
        | false =>
          have hsh1 : noCallShape t1 ((t2 :: rest2) ++ ys) := by
            intro k s r2 hk hr
            injection hr with h1 h2
            rw [hk, h1] at hcs
            simpa [isCallShape] using hcs
          have hsh2 : noCallShape t1 (t2 :: rest2) := by
            intro k s r2 hk hr
            injection hr with h1 h2
            rw [hk, h1] at hcs
            simpa [isCallShape] using hcs
          have hl : (t2 :: rest2).length ≤ n := by
            simp only [List.length_cons] at hlen ⊢; omega
          have heq := ih (t2 :: rest2) ys hl hy
          rw [show ((t1 :: t2 :: rest2) ++ ys) = t1 :: ((t2 :: rest2) ++ ys) from rfl,
            inline_cons_noncall res f t1 _ hct hsh1, heq,
            inline_cons_noncall res f t1 _ hct hsh2]
          cases hr2 : inlineCalls res (f + 1) (t2 :: rest2) with
          | none => rfl
          | some a =>
            cases hys : inlineCalls res (f + 1) ys <;> simp [hys]

/-- Helper: slice endpoint normalization of an in-range nonnegative
index. -/
theorem sliceIndex_coe (n a : Nat) (h : a ≤ n) : sliceIndex n (a : Int) = a := by
  simp [sliceIndex, Int.toNat_natCast, Nat.min_eq_left h]

/-- Helper: slice assignment with in-range nonnegative endpoints. -/
theorem setSlice_eq (l : List Tok) (a b : Nat) (rep : List Tok) (hab : a ≤ b)
    (hb : b ≤ l.length) :
    setSlice l (a : Int) (b : Int) rep = l.take a ++ rep ++ l.drop b := by
  rw [setSlice, sliceIndex_coe _ _ (le_trans hab hb), sliceIndex_coe _ _ hb,
    Nat.max_eq_right hab]

/-- Helper: the update_program loop, run over a program with an already
processed prefix, realizes the gap-and-replacement splice of the
encoding. -/
theorem updateGo_splice (gbias : Int) (lbias : List Int) (fd : Option Nat) (p : List Tok) :
    ∀ (enc : List (Nat × CSubr)) (c : Nat) (pre : List Tok),
      wfEnc p c enc = true →
      updateGo gbias lbias fd (pre ++ p.drop c) ((c : Int) - pre.length) enc =
        (spliceAll p gbias lbias fd c enc).map (fun t => pre ++ t) := by
  intro enc
  induction enc with
  | nil => intro c pre _; simp [updateGo, spliceAll]
  | cons item rest ih =>
    obtain ⟨start, sub⟩ := item
    intro c pre hwf
    have hwf2 : (decide (c ≤ start) && decide (start + sub.length ≤ p.length) &&
        decide ((p.drop start).take sub.length = sub.valueToks) &&
        wfEnc p (start + sub.length) rest) = true := hwf
    simp only [Bool.and_eq_true, decide_eq_true_eq] at hwf2
    obtain ⟨⟨⟨hc, hb⟩, hv⟩, hrest⟩ := hwf2
    cases hrep : replacementFor gbias lbias fd sub with
    | none => simp [updateGo, spliceAll, hrep]
    | some rep =>
      have hA : (start : Int) - ((c : Int) - (pre.length : Int)) =
          ((pre.length + (start - c) : Nat) : Int) := by
        rw [Nat.cast_add, Nat.cast_sub hc]; ring
      have hB : (start : Int) + (sub.length : Int) - ((c : Int) - (pre.length : Int)) =
          ((pre.length + (start - c) + sub.length : Nat) : Int) := by
        rw [Nat.cast_add, Nat.cast_add, Nat.cast_sub hc]; ring
      have hlen2 : (pre ++ p.drop c).length = pre.length + (p.length - c) := by
        simp [List.length_drop]
      have hsl : setSlice (pre ++ p.drop c) ((start : Int) - ((c : Int) - (pre.length : Int)))
          ((start : Int) + (sub.length : Int) - ((c : Int) - (pre.length : Int))) rep =
          (pre ++ p.drop c).take (pre.length + (start - c)) ++ rep ++
            (pre ++ p.drop c).drop (pre.length + (start - c) + sub.length) := by
        rw [hA, hB]
        exact setSlice_eq _ _ _ rep (by omega) (by rw [hlen2]; omega)
      have htake : (pre ++ p.drop c).take (pre.length + (start - c)) =
          pre ++ (p.drop c).take (start - c) := by
        rw [List.take_append_eq_append_take]
        congr 1
        · exact List.take_of_length_le (by omega)
        · congr 1
          omega
      have hdrop : (pre ++ p.drop c).drop (pre.length + (start - c) + sub.length) =
          p.drop (start + sub.length) := by
        rw [List.drop_append_eq_append_drop, List.drop_eq_nil_of_le (by omega),
          List.nil_append, List.drop_drop]
        congr 1
        omega
      have htl : ((p.drop c).take (start - c)).length = start - c := by
        rw [List.length_take, List.length_drop]
        omega
      have hoff : ((c : Int) - (pre.length : Int)) + (sub.length : Int) - (rep.length : Int) =
          ((start + sub.length : Nat) : Int) -
            (((pre ++ (p.drop c).take (start - c) ++ rep).length : Nat) : Int) := by
        simp only [List.length_append, htl]
        omega
      show (match replacementFor gbias lbias fd sub with
        | none => none
        | some rep =>
          updateGo gbias lbias fd
            (setSlice (pre ++ p.drop c) ((start : Int) - ((c : Int) - (pre.length : Int)))
              ((start : Int) + (sub.length : Int) - ((c : Int) - (pre.length : Int))) rep)
            (((c : Int) - (pre.length : Int)) + (sub.length : Int) - (rep.length : Int)) rest) =
        (spliceAll p gbias lbias fd c ((start, sub) :: rest)).map (fun t => pre ++ t)
      rw [hrep]
      dsimp only
      rw [hsl, htake, hdrop, hoff]
      rw [ih (start + sub.length) (pre ++ (p.drop c).take (start - c) ++ rep) hrest]
      cases ht : spliceAll p gbias lbias fd (start + sub.length) rest with
      | none => simp [spliceAll, hrep, ht]
      | some tail => simp [spliceAll, hrep, ht]

/-- Helper: update_program realizes the gap-and-replacement splice of a
wellformed encoding. -/
theorem updateProgram_splice (p : List Tok) (enc : List (Nat × CSubr))
    (gbias : Int) (lbias : List Int) (fd : Option Nat)
    (hwf : wfEnc p 0 enc = true) :
    updateProgram p enc gbias lbias fd = spliceAll p gbias lbias fd 0 enc := by
  have h := updateGo_splice gbias lbias fd p enc 0 [] hwf
  simp only [List.nil_append, List.drop_zero, List.length_nil, Nat.cast_zero,
    sub_zero] at h
  rw [updateProgram, h]
  cases spliceAll p gbias lbias fd 0 enc <;> simp

/-- Helper: the splice succeeds when every encoding item has a
replacement. -/
theorem spliceAll_isSome (p : List Tok) (gbias : Int) (lbias : List Int) (fd : Option Nat) :
    ∀ (enc : List (Nat × CSubr)) (c : Nat),
      (∀ item ∈ enc, (replacementFor gbias lbias fd item.2).isSome = true) →
      (spliceAll p gbias lbias fd c enc).isSome = true := by
  intro enc
  induction enc with
  | nil => intro c _; simp [spliceAll]
  | cons item rest ih =>
    intro c h
    obtain ⟨start, sub⟩ := item
    have h1 := h (start, sub) (by simp)
    cases hrep : replacementFor gbias lbias fd sub with
    | none => rw [hrep] at h1; cases h1
    | some rep =>
      have h2 := ih (start + sub.length) (fun it hit => h it (by simp [hit]))
      cases ht : spliceAll p gbias lbias fd (start + sub.length) rest with
      | none => rw [ht] at h2; cases h2
      | some tail => simp [spliceAll, hrep, ht]

/-- Helper: inlining the spliced program restores the original suffix,
provided the program has no call operators and every replacement block
inlines back to its item value tokens. -/
theorem inline_spliceAll (res : Bool → Int → Option (List Tok)) (F : Nat) (p : List Tok)
    (gbias : Int) (lbias : List Int) (fd : Option Nat)
    (hp : ∀ t ∈ p, isCallTok t = false) (hF : 1 ≤ F) :
    ∀ (enc : List (Nat × CSubr)) (c : Nat) (out : List Tok),
      wfEnc p c enc = true →
      (∀ item ∈ enc, ∃ rep, replacementFor gbias lbias fd item.2 = some rep ∧
          inlineCalls res F rep = some item.2.valueToks) →
      spliceAll p gbias lbias fd c enc = some out →
      inlineCalls res F out = some (p.drop c) := by
  obtain ⟨f, rfl⟩ : ∃ f, F = f + 1 := ⟨F - 1, by omega⟩
  intro enc
  induction enc with
  | nil =>
    intro c out _ _ hsp
    have hout : out = p.drop c := by
      have h2 : some (p.drop c) = some out := hsp
      exact (Option.some.injEq _ _ ▸ h2).symm
    subst hout
    exact inline_gap res _ (fun t ht => hp t (List.mem_of_mem_drop ht)) f
  | cons item rest ih =>
    intro c out hwf hreps hsp
    obtain ⟨start, sub⟩ := item
    have hwf2 : (decide (c ≤ start) && decide (start + sub.length ≤ p.length) &&
        decide ((p.drop start).take sub.length = sub.valueToks) &&
        wfEnc p (start + sub.length) rest) = true := hwf
    simp only [Bool.and_eq_true, decide_eq_true_eq] at hwf2
    obtain ⟨⟨⟨hc, hb⟩, hv⟩, hrest⟩ := hwf2
    obtain ⟨rep, hrep, hirep⟩ := hreps (start, sub) (by simp)
    simp only [spliceAll, bind, hrep, Option.some_bind, Option.bind_eq_some] at hsp
    obtain ⟨tail, htail, hout⟩ := hsp
    have hout2 : (p.drop c).take (start - c) ++ rep ++ tail = out := by
      simpa using hout
    have hitail := ih (start + sub.length) tail hrest
      (fun it hit => hreps it (by simp [hit])) htail
    have hnct : headNotCall tail := headNotCall_of_inline res (f + 1) tail _ hitail
    have hncr : headNotCall rep := headNotCall_of_inline res (f + 1) rep _ hirep
    have higap : inlineCalls res (f + 1) ((p.drop c).take (start - c)) =
        some ((p.drop c).take (start - c)) :=
      inline_gap res _
        (fun t ht => hp t (List.mem_of_mem_drop (List.mem_of_mem_take ht))) f
    have h1 : inlineCalls res (f + 1) (rep ++ tail) =
        some (sub.valueToks ++ p.drop (start + sub.length)) := by
      rw [inline_append res f rep.length rep tail le_rfl hnct, hirep, hitail]
      rfl
    have h2 : inlineCalls res (f + 1) ((p.drop c).take (start - c) ++ (rep ++ tail)) =
        some ((p.drop c).take (start - c) ++ (sub.valueToks ++ p.drop (start + sub.length))) := by
      rw [inline_append res f ((p.drop c).take (start - c)).length _ _ le_rfl
        (headNotCall_append _ _ hncr hnct), higap, h1]
      rfl
    have hid : (p.drop c).take (start - c) ++ (sub.valueToks ++ p.drop (start + sub.length)) =
        p.drop c := by
      rw [← hv]
      have e0 : List.drop (start + sub.length) p =
          List.drop sub.length (List.drop start p) := by
        rw [List.drop_drop]
      rw [e0, List.take_append_drop]
      have e2 : List.drop start p = List.drop (start - c) (List.drop c p) := by
        rw [List.drop_drop]
        congr 1
        omega
      rw [e2, List.take_append_drop]
    rw [← hout2, List.append_assoc, h2, hid]

/-- Concrete glyph program for the emission round trip witness. -/
def c1ProgW : List Tok := [Tok.num 1, Tok.str "rlineto", Tok.num 2, Tok.str "hlineto"]

/-- Concrete placed subroutine for the emission round trip witness: its
value is the first two tokens of the glyph program, stored in the global
table at position 0. -/
def c1SubW : CSubr :=
  ⟨2, [Tok.num 1, Tok.str "rlineto"], false, none, some 0, true, []⟩

/-- Concrete resolver for the emission round trip witness: global
subroutine 0 has the emitted body of c1SubW, its value followed by a
return operator. -/
def c1ResW : Bool → Int → Option (List Tok) := fun g k =>
  if g = true ∧ k = 0 then some [Tok.num 1, Tok.str "rlineto", Tok.str "return"]
  else none

/-- Helper: collapse_hintmask introduces no call operators. -/
theorem collapse_no_call : ∀ (n : Nat) (orig pC : List Tok), orig.length ≤ n →
    collapseHintmask orig = some pC →
    (∀ t ∈ orig, isCallTok t = false) → ∀ t ∈ pC, isCallTok t = false := by
  intro n
  induction n with
  | zero =>
    intro orig pC hlen hcol h
    have ho : orig = [] := List.length_eq_zero.mp (Nat.le_zero.mp hlen)
    subst ho
    have hp : pC = [] := by
      have h2 : some ([] : List Tok) = some pC := hcol
      exact ((Option.some.injEq _ _ ▸ h2)).symm
    subst hp
    intro t ht
    cases ht
  | succ n ihn =>
    intro orig pC hlen hcol h
    match orig, hlen, hcol, h with
    | [], _, hcol, _ =>
      have hp : pC = [] := by
        have h2 : some ([] : List Tok) = some pC := hcol
        exact ((Option.some.injEq _ _ ▸ h2)).symm
      subst hp
      intro t ht
      cases ht
    | t :: rest, hlen, hcol, h =>
      by_cases hm : isMaskOp t = true
      · match rest, hlen, hcol, h with
        | [], _, hcol, _ =>
          rw [collapseHintmask.eq_def] at hcol
          simp only [hm, if_true] at hcol
          cases hcol
        | m :: rest2, hlen, hcol, h =>
          rw [collapseHintmask.eq_def] at hcol
          simp only [hm, if_true, Option.map_eq_some'] at hcol
          obtain ⟨l, hc2, hl⟩ := hcol
          have hlen2 : rest2.length ≤ n := by
            simp only [List.length_cons] at hlen; omega
          have hrest2 : ∀ u ∈ rest2, isCallTok u = false :=
            fun u hu => h u (by simp [hu])
          have hrec := ihn rest2 l hlen2 hc2 hrest2
          intro u hu
          rw [← hl] at hu
          rcases List.mem_cons.mp hu with h1 | h1
          · rw [h1]; rfl
          · exact hrec u h1
      · have hmf : isMaskOp t = false := by
          cases h2 : isMaskOp t with
          | false => rfl
          | true => exact absurd h2 hm
        rw [collapseHintmask.eq_def] at hcol
        simp only [hmf, Bool.false_eq_true, if_false, Option.map_eq_some'] at hcol
        obtain ⟨l, hc1, hl⟩ := hcol
        have hlen1 : rest.length ≤ n := by
          simp only [List.length_cons] at hlen; omega
        have hrest : ∀ u ∈ rest, isCallTok u = false :=
          fun u hu => h u (by simp [hu])
        have hrec := ihn rest l hlen1 hc1 hrest
        intro u hu
        rw [← hl] at hu
        rcases List.mem_cons.mp hu with h1 | h1
        · rw [h1]; exact h t (by simp)
        · exact hrec u h1

/-- C1: for every glyph program without call operators and in wellformed
hintmask form, collapse the hintmasks and rewrite the collapsed program
with update_program over a wellformed encoding; then recursively
substituting each callsubr/callgsubr call in the emitted program with the
body of the referenced subroutine (omitting its trailing return) yields
the collapsed program back, and hintmask expansion of it restores the
glyph's original token program.  The resolution hypothesis states that
each encoding item's replacement block inlines back to the item's value
tokens, which is the recursive induction hypothesis for the subroutine
tables themselves. -/
theorem c1_emitted_roundtrip
    (orig pC : List Tok) (enc : List (Nat × CSubr))
    (gbias : Int) (lbias : List Int) (fd : Option Nat)
    (res : Bool → Int → Option (List Tok)) (F : Nat)
    (hmask : maskWF orig = true)
    (hcall : ∀ t ∈ orig, isCallTok t = false)
    (hcol : collapseHintmask orig = some pC)
    (hwf : wfEnc pC 0 enc = true)
    (hreps : ∀ item ∈ enc, ∃ rep, replacementFor gbias lbias fd item.2 = some rep ∧
        inlineCalls res F rep = some item.2.valueToks)
    (hF : 1 ≤ F) :
    ∃ emitted, updateProgram pC enc gbias lbias fd = some emitted ∧
      inlineCalls res F emitted = some pC ∧ expandHintmask pC = some orig := by
  have hpc : ∀ t ∈ pC, isCallTok t = false :=
    collapse_no_call orig.length orig pC (Nat.le_refl _) hcol hcall
  have hsome : (spliceAll pC gbias lbias fd 0 enc).isSome = true :=
    spliceAll_isSome pC gbias lbias fd enc 0
      (fun it hit => by obtain ⟨rep, hrep, _⟩ := hreps it hit; rw [hrep]; rfl)
  obtain ⟨emitted, hemit⟩ := Option.isSome_iff_exists.mp hsome
  refine ⟨emitted, ?_, ?_, ?_⟩
  · rw [updateProgram_splice pC enc gbias lbias fd hwf, hemit]
  · have h := inline_spliceAll res F pC gbias lbias fd hpc hF enc 0 emitted hwf
      hreps hemit
    simpa using h
  · obtain ⟨q, hq1, hq2⟩ := collapse_expand_id orig.length orig (Nat.le_refl _) hmask
    rw [hcol] at hq1
    have hqe : pC = q := Option.some.injEq _ _ ▸ hq1
    rw [hqe]
    exact hq2

/-- C1 witness: a concrete glyph program, encoding, and resolver realize
the emission round trip. -/
theorem c1_witness :
    (maskWF c1ProgW = true ∧ collapseHintmask c1ProgW = some c1ProgW ∧
      wfEnc c1ProgW 0 [(0, c1SubW)] = true) ∧
    ∃ emitted, updateProgram c1ProgW [(0, c1SubW)] 0 [] none = some emitted ∧
      inlineCalls c1ResW 2 emitted = some c1ProgW ∧
      expandHintmask c1ProgW = some c1ProgW :=
  ⟨⟨by decide, by decide, by decide⟩,
    c1_emitted_roundtrip c1ProgW c1ProgW [(0, c1SubW)] 0 [] none c1ResW 2
      (by decide) (by decide) (by decide) (by decide)
      (by
        intro item hit
        have hi : item = (0, c1SubW) := by simpa using hit
        subst hi
        refine ⟨[Tok.num 0, Tok.str "callgsubr"], by decide, ?_⟩
        simp [inlineCalls, c1ResW, c1SubW, dropTrailingReturn, isCallTok])
      (by omega)⟩

/-! ### SubstringFinder.get_suffixes and SubstringFinder.get_lcp
(pyCompressor.py lines 300-349).  The corpus is the list of remapped glyph
token strings (self.data); a position (g, t) stands for the suffix of
glyph g starting at token t.  The source sorts the glyph-major position
list with the stable Python sort keyed on the suffix value; rank is the
scatter-built inverse of the sorted list, which for a list of distinct
positions is the index of the position in it. -/

/- Section A: lexicographic comparison and common-prefix length -/

def lexLtB : List Nat → List Nat → Bool
  | [], [] => false
  | [], _ :: _ => true
  | _ :: _, [] => false
  | a :: as, b :: bs =>
    if a < b then true else if b < a then false else lexLtB as bs

def lexLeB (x y : List Nat) : Bool := !lexLtB y x

def lcpLen : List Nat → List Nat → Nat
  | a :: as, b :: bs => if a = b then lcpLen as bs + 1 else 0
  | _, _ => 0

theorem lexLtB_irrefl : ∀ x : List Nat, lexLtB x x = false := by
  intro x
  induction x with
  | nil => rfl
  | cons a as ih => simp [lexLtB, ih]

theorem lexLtB_antisymm : ∀ x y : List Nat, lexLtB x y = false → lexLtB y x = false → x = y := by
  intro x
  induction x with
  | nil =>
    intro y hxy _
    cases y with
    | nil => rfl
    | cons b bs => simp [lexLtB] at hxy
  | cons a as ih =>
    intro y hxy hyx
    cases y with
    | nil => simp [lexLtB] at hyx
    | cons b bs =>
      rw [lexLtB] at hxy hyx
      by_cases hab : a < b
      · simp [hab] at hxy
      · by_cases hba : b < a
        · simp [hba, hab] at hyx
        · have hab2 : a = b := le_antisymm (not_lt.mp hba) (not_lt.mp hab)
          simp [hab, hba, hab2] at hxy hyx ⊢
          exact ih bs hxy hyx

theorem lexLtB_trans : ∀ x y z : List Nat, lexLtB x y = true → lexLtB y z = true →
    lexLtB x z = true := by
  intro x
  induction x with
  | nil =>
    intro y z hxy hyz
    cases y with
    | nil => simp [lexLtB] at hxy
    | cons b bs =>
      cases z with
      | nil => simp [lexLtB] at hyz
      | cons c cs => rfl
  | cons a as ih =>
    intro y z hxy hyz
    cases y with
    | nil => simp [lexLtB] at hxy
    | cons b bs =>
      cases z with
      | nil => simp [lexLtB] at hyz
      | cons c cs =>
        rw [lexLtB] at hxy hyz ⊢
        by_cases hab : a < b
        · by_cases hbc : b < c
          · simp [lt_trans hab hbc]
          · by_cases hcb : c < b
            · simp [hbc, hcb] at hyz
            · have : b = c := le_antisymm (not_lt.mp hcb) (not_lt.mp hbc)
              subst this
              simp [hab]
        · by_cases hba : b < a
          · simp [hab, hba] at hxy
          · have : a = b := le_antisymm (not_lt.mp hba) (not_lt.mp hab)
            subst this
            simp [hab, lt_irrefl] at hxy
            by_cases hbc : a < c
            · simp [hbc]
            · by_cases hcb : c < a
              · simp [hbc, hcb] at hyz
              · have : a = c := le_antisymm (not_lt.mp hcb) (not_lt.mp hbc)
                subst this
                simp [lt_irrefl] at hyz ⊢
                exact ih bs cs hxy hyz

theorem lexLtB_cons_same (c : Nat) (u v : List Nat) :
    lexLtB (c :: u) (c :: v) = lexLtB u v := by
  simp [lexLtB]

theorem lexLeB_refl (x : List Nat) : lexLeB x x = true := by
  simp [lexLeB, lexLtB_irrefl]

theorem lexLeB_trans (x y z : List Nat) (hxy : lexLeB x y = true)
    (hyz : lexLeB y z = true) : lexLeB x z = true := by
  simp only [lexLeB, Bool.not_eq_true'] at hxy hyz ⊢
  cases hzx : lexLtB z x with
  | false => rfl
  | true =>
    exfalso
    cases hxy2 : lexLtB x y with
    | true =>
      have h1 := lexLtB_trans z x y hzx hxy2
      rw [hyz] at h1
      cases h1
    | false =>
      have hxy3 : x = y := lexLtB_antisymm x y hxy2 hxy
      subst hxy3
      rw [hzx] at hyz
      cases hyz

theorem lcpLen_nil_left (y : List Nat) : lcpLen [] y = 0 := by
  cases y <;> rfl

theorem lcpLen_nil_right (x : List Nat) : lcpLen x [] = 0 := by
  cases x <;> rfl

theorem lcpLen_cons_eq (c : Nat) (u v : List Nat) :
    lcpLen (c :: u) (c :: v) = lcpLen u v + 1 := by
  simp [lcpLen]

theorem lcpLen_cons_ne (a b : Nat) (u v : List Nat) (h : a ≠ b) :
    lcpLen (a :: u) (b :: v) = 0 := by
  simp [lcpLen, h]

theorem lcpLen_pos_shape (x y : List Nat) (h : 1 ≤ lcpLen x y) :
    ∃ c u v, x = c :: u ∧ y = c :: v := by
  match x, y with
  | [], _ => rw [lcpLen_nil_left] at h; omega
  | _ :: _, [] => rw [lcpLen_nil_right] at h; omega
  | a :: u, b :: v =>
    by_cases hab : a = b
    · exact ⟨a, u, v, rfl, hab ▸ rfl⟩
    · rw [lcpLen_cons_ne a b u v hab] at h; omega

theorem lcpLen_drop (h : Nat) : ∀ (x y : List Nat), h ≤ lcpLen x y →
    h + lcpLen (x.drop h) (y.drop h) = lcpLen x y := by
  induction h with
  | zero => intro x y _; simp
  | succ h ih =>
    intro x y hle
    obtain ⟨c, u, v, hx, hy⟩ := lcpLen_pos_shape x y (by omega)
    subst hx hy
    rw [lcpLen_cons_eq] at hle ⊢
    have := ih u v (by omega)
    simp only [List.drop_succ_cons]
    omega

theorem lexLeB_cons_same (c : Nat) (u v : List Nat) :
    lexLeB (c :: u) (c :: v) = lexLeB u v := by
  simp [lexLeB, lexLtB_cons_same]

theorem lexLeB_nil_cons (b : Nat) (v : List Nat) : lexLeB [] (b :: v) = true := by
  rfl

theorem lexLeB_cons_nil (a : Nat) (u : List Nat) : lexLeB (a :: u) [] = false := by
  rfl

theorem lexLtB_lt_head (b c : Nat) (ys zs : List Nat) (h : b < c) :
    lexLtB (b :: ys) (c :: zs) = true := by
  simp [lexLtB, h]

theorem lcpLen_chain : ∀ (z x y : List Nat), lexLeB x y = true → lexLeB y z = true →
    lcpLen x z ≤ lcpLen y z := by
  intro z
  induction z with
  | nil => intro x y _ _; rw [lcpLen_nil_right, lcpLen_nil_right]
  | cons c zs ih =>
    intro x y hxy hyz
    by_cases hpos : 1 ≤ lcpLen x (c :: zs)
    · obtain ⟨c2, xs, zs2, hx, hz⟩ := lcpLen_pos_shape _ _ hpos
      injection hz with h1 h2
      subst h1 h2 hx
      match y with
      | [] => rw [lexLeB_cons_nil] at hxy; cases hxy
      | b :: ys =>
        have hcb : ¬ c < b := by
          intro hlt
          have h2 := lexLtB_lt_head c b zs ys hlt
          simp only [lexLeB, h2, Bool.not_true] at hyz
          cases hyz
        have hbc : ¬ b < c := by
          intro hlt
          have h2 := lexLtB_lt_head b c ys xs hlt
          simp only [lexLeB, h2, Bool.not_true] at hxy
          cases hxy
        have hb : b = c := by omega
        subst hb
        rw [lexLeB_cons_same] at hxy hyz
        rw [lcpLen_cons_eq, lcpLen_cons_eq]
        have := ih xs ys hxy hyz
        omega
    · omega

/- Section B: corpus positions, the suffix sort, and stability -/

theorem lexLtB_asymm2 (x y : List Nat) (h : lexLtB x y = true) : lexLtB y x = false := by
  cases h2 : lexLtB y x with
  | false => rfl
  | true =>
    have h3 := lexLtB_trans x y x h h2
    rw [lexLtB_irrefl] at h3
    cases h3

def sufStr (D : List (List Nat)) (p : Nat × Nat) : List Nat :=
  (D.getD p.1 []).drop p.2

def posLt (p q : Nat × Nat) : Prop := p.1 < q.1 ∨ (p.1 = q.1 ∧ p.2 < q.2)

def allPositions (D : List (List Nat)) : List (Nat × Nat) :=
  (List.range D.length).flatMap
    (fun g => (List.range (D.getD g []).length).map (fun t => (g, t)))

def getSuffixes (D : List (List Nat)) : List (Nat × Nat) :=
  List.insertionSort (fun p q => lexLeB (sufStr D p) (sufStr D q) = true) (allPositions D)

def stableR (D : List (List Nat)) (p q : Nat × Nat) : Prop :=
  lexLtB (sufStr D p) (sufStr D q) = true ∨ (sufStr D p = sufStr D q ∧ posLt p q)

theorem stableR_to_le (D : List (List Nat)) (p q : Nat × Nat) (h : stableR D p q) :
    lexLeB (sufStr D p) (sufStr D q) = true := by
  rcases h with h | ⟨h, _⟩
  · simp [lexLeB, lexLtB_asymm2 _ _ h]
  · rw [h, lexLeB_refl]

theorem orderedInsert_pairwise (D : List (List Nat)) (x : Nat × Nat) :
    ∀ (ys : List (Nat × Nat)), ys.Pairwise (stableR D) → (∀ u ∈ ys, posLt x u) →
      (List.orderedInsert (fun p q => lexLeB (sufStr D p) (sufStr D q) = true) x ys).Pairwise
        (stableR D) := by
  intro ys
  induction ys with
  | nil => intro _ _; simp
  | cons y ys ih =>
    intro hp hx
    rw [List.orderedInsert]
    by_cases hr : lexLeB (sufStr D x) (sufStr D y) = true
    · rw [if_pos hr]
      constructor
      · intro z hz
        have hxz : lexLeB (sufStr D x) (sufStr D z) = true := by
          rcases List.mem_cons.mp hz with h | h
          · rw [h]; exact hr
          · have hyz := (List.pairwise_cons.mp hp).1 z h
            exact lexLeB_trans _ _ _ hr (stableR_to_le D y z hyz)
        cases hlt : lexLtB (sufStr D x) (sufStr D z) with
        | true => exact Or.inl hlt
        | false =>
          have h2 : lexLtB (sufStr D z) (sufStr D x) = false := by
            simpa [lexLeB] using hxz
          exact Or.inr ⟨lexLtB_antisymm _ _ hlt h2, hx z hz⟩
      · exact hp
    · rw [if_neg hr]
      obtain ⟨hy_ys, hys⟩ := List.pairwise_cons.mp hp
      constructor
      · intro z hz
        have hz2 : z ∈ x :: ys := (List.perm_orderedInsert _ x ys).mem_iff.mp hz
        rcases List.mem_cons.mp hz2 with h | h
        · rw [h]
          left
          simpa [lexLeB] using hr
        · exact hy_ys z h
      · exact ih hys (fun u hu => hx u (by simp [hu]))

theorem insertionSort_pairwise (D : List (List Nat)) :
    ∀ (l : List (Nat × Nat)), l.Pairwise posLt →
      (List.insertionSort (fun p q => lexLeB (sufStr D p) (sufStr D q) = true) l).Pairwise
        (stableR D) := by
  intro l
  induction l with
  | nil => intro _; simp
  | cons x xs ih =>
    intro hp
    obtain ⟨hx, hxs⟩ := List.pairwise_cons.mp hp
    rw [List.insertionSort]
    apply orderedInsert_pairwise D x _ (ih hxs)
    intro u hu
    exact hx u ((List.Perm.mem_iff (List.perm_insertionSort _ _)).mp hu)

theorem allPositions_pairwise (D : List (List Nat)) :
    (allPositions D).Pairwise posLt := by
  rw [allPositions, List.pairwise_flatMap]
  constructor
  · intro g _
    rw [List.pairwise_map]
    apply List.Pairwise.imp _ (List.pairwise_lt_range _)
    intro t1 t2 h
    exact Or.inr ⟨rfl, h⟩
  · apply List.Pairwise.imp _ (List.pairwise_lt_range _)
    intro g1 g2 hg x hx y hy
    obtain ⟨t1, _, hx2⟩ := List.mem_map.mp hx
    obtain ⟨t2, _, hy2⟩ := List.mem_map.mp hy
    rw [← hx2, ← hy2]
    exact Or.inl hg

theorem allPositions_nodup (D : List (List Nat)) : (allPositions D).Nodup := by
  apply List.Pairwise.imp _ (allPositions_pairwise D)
  intro p q hpq hne
  subst hne
  rcases hpq with h | ⟨_, h⟩ <;> omega

theorem mem_allPositions (D : List (List Nat)) (p : Nat × Nat) :
    p ∈ allPositions D ↔ p.1 < D.length ∧ p.2 < (D.getD p.1 []).length := by
  rw [allPositions, List.mem_flatMap]
  constructor
  · rintro ⟨g, hg, hp⟩
    obtain ⟨t, ht, hpt⟩ := List.mem_map.mp hp
    rw [← hpt]
    exact ⟨List.mem_range.mp hg, List.mem_range.mp ht⟩
  · rintro ⟨h1, h2⟩
    exact ⟨p.1, List.mem_range.mpr h1,
      List.mem_map.mpr ⟨p.2, List.mem_range.mpr h2, rfl⟩⟩

/- Section C: rank facts for the sorted suffix list -/

def rankOf (S : List (Nat × Nat)) (p : Nat × Nat) : Nat :=
  S.findIdx (fun q => decide (q = p))

theorem getSuffixes_perm (D : List (List Nat)) :
    (getSuffixes D).Perm (allPositions D) :=
  List.perm_insertionSort _ _

theorem getSuffixes_pairwise (D : List (List Nat)) :
    (getSuffixes D).Pairwise (stableR D) :=
  insertionSort_pairwise D _ (allPositions_pairwise D)

theorem getSuffixes_nodup (D : List (List Nat)) : (getSuffixes D).Nodup :=
  ((getSuffixes_perm D).nodup_iff).mpr (allPositions_nodup D)

theorem mem_getSuffixes (D : List (List Nat)) (p : Nat × Nat) :
    p ∈ getSuffixes D ↔ p.1 < D.length ∧ p.2 < (D.getD p.1 []).length :=
  ((getSuffixes_perm D).mem_iff).trans (mem_allPositions D p)

theorem rank_lt_length (S : List (Nat × Nat)) (p : Nat × Nat) (h : p ∈ S) :
    rankOf S p < S.length :=
  List.findIdx_lt_length_of_exists ⟨p, h, by simp⟩

theorem get_rank (S : List (Nat × Nat)) (p : Nat × Nat) (h : p ∈ S) :
    S.get ⟨rankOf S p, rank_lt_length S p h⟩ = p := by
  have h2 := @List.findIdx_get _ (fun q => decide (q = p)) S (rank_lt_length S p h)
  simpa using h2

theorem rank_get (S : List (Nat × Nat)) (hnd : S.Nodup) (i : Fin S.length) :
    rankOf S (S.get i) = i := by
  have hmem : S.get i ∈ S := List.get_mem S i i.isLt
  have h1 := get_rank S (S.get i) hmem
  have h2 := (List.Nodup.get_inj_iff hnd).mp h1
  exact congrArg Fin.val h2

theorem stableR_get (D : List (List Nat)) (i j : Fin (getSuffixes D).length) (h : i < j) :
    stableR D ((getSuffixes D).get i) ((getSuffixes D).get j) :=
  List.pairwise_iff_get.mp (getSuffixes_pairwise D) i j h

theorem rank_lt_of_lexLt (D : List (List Nat)) (p q : Nat × Nat)
    (hp : p ∈ getSuffixes D) (hq : q ∈ getSuffixes D)
    (h : lexLtB (sufStr D p) (sufStr D q) = true) :
    rankOf (getSuffixes D) p < rankOf (getSuffixes D) q := by
  by_contra hle
  rcases Nat.lt_or_ge (rankOf (getSuffixes D) q) (rankOf (getSuffixes D) p) with hlt | hge
  · have h2 := stableR_get D ⟨rankOf (getSuffixes D) q, rank_lt_length _ q hq⟩
      ⟨rankOf (getSuffixes D) p, rank_lt_length _ p hp⟩ hlt
    rw [get_rank _ q hq, get_rank _ p hp] at h2
    have h3 := stableR_to_le D q p h2
    simp only [lexLeB, h, Bool.not_true] at h3
    cases h3
  · have hij : rankOf (getSuffixes D) p = rankOf (getSuffixes D) q := by omega
    have h2 : p = q := by
      have hgp := get_rank _ p hp
      rw [← hgp]
      have hgq := get_rank _ q hq
      conv_rhs => rw [← hgq]
      congr 1
      exact Fin.ext hij
    rw [h2, lexLtB_irrefl] at h
    cases h

theorem rank_lt_of_stable (D : List (List Nat)) (p q : Nat × Nat)
    (hp : p ∈ getSuffixes D) (hq : q ∈ getSuffixes D)
    (heq : sufStr D p = sufStr D q) (hpos : posLt p q) :
    rankOf (getSuffixes D) p < rankOf (getSuffixes D) q := by
  by_contra hle
  rcases Nat.lt_or_ge (rankOf (getSuffixes D) q) (rankOf (getSuffixes D) p) with hlt | hge
  · have h2 := stableR_get D ⟨rankOf (getSuffixes D) q, rank_lt_length _ q hq⟩
      ⟨rankOf (getSuffixes D) p, rank_lt_length _ p hp⟩ hlt
    rw [get_rank _ q hq, get_rank _ p hp] at h2
    rcases h2 with h2 | ⟨_, h2⟩
    · rw [heq, lexLtB_irrefl] at h2
      cases h2
    · rcases hpos with h3 | ⟨h3, h4⟩ <;> rcases h2 with h5 | ⟨h5, h6⟩ <;> omega
  · have hij : rankOf (getSuffixes D) p = rankOf (getSuffixes D) q := by omega
    have h2 : p = q := by
      have hgp := get_rank _ p hp
      rw [← hgp]
      have hgq := get_rank _ q hq
      conv_rhs => rw [← hgq]
      congr 1
      exact Fin.ext hij
    rw [h2] at hpos
    rcases hpos with h3 | ⟨_, h3⟩ <;> omega

/- Section D: the Kasai carry lemmas -/

def adjLcp (D : List (List Nat)) (r : Nat) : Nat :=
  lcpLen (sufStr D ((getSuffixes D).getD (r-1) (0,0)))
    (sufStr D ((getSuffixes D).getD r (0,0)))

theorem sufStr_succ (D : List (List Nat)) (q : Nat × Nat) (c : Nat) (u : List Nat)
    (h : sufStr D q = c :: u) : sufStr D (q.1, q.2 + 1) = u := by
  have h2 : (D.getD q.1 []).drop q.2 = c :: u := h
  show (D.getD q.1 []).drop (q.2 + 1) = u
  rw [← List.tail_drop, h2]
  rfl

theorem valid_succ (D : List (List Nat)) (q : Nat × Nat) (c : Nat) (u : List Nat)
    (hq : q ∈ getSuffixes D) (h : sufStr D q = c :: u) (hu : u ≠ []) :
    (q.1, q.2 + 1) ∈ getSuffixes D := by
  rw [mem_getSuffixes] at hq ⊢
  obtain ⟨h1, h2⟩ := hq
  refine ⟨h1, ?_⟩
  have h3 : ((D.getD q.1 []).drop q.2).length = (c :: u).length := by
    show (sufStr D q).length = _
    rw [h]
  rw [List.length_drop, List.length_cons] at h3
  have h4 : u.length ≥ 1 := by
    cases u with
    | nil => exact absurd rfl hu
    | cons a as => simp
  simp only []
  omega

theorem posLt_succ (p q : Nat × Nat) (h : posLt p q) :
    posLt (p.1, p.2 + 1) (q.1, q.2 + 1) := by
  rcases h with h | ⟨h1, h2⟩
  · exact Or.inl h
  · exact Or.inr ⟨h1, by omega⟩

theorem kasai_core (D : List (List Nat)) (g t : Nat)
    (hv : (g, t) ∈ getSuffixes D) (hv2 : (g, t + 1) ∈ getSuffixes D)
    (hr : 0 < rankOf (getSuffixes D) (g, t))
    (hL : 2 ≤ adjLcp D (rankOf (getSuffixes D) (g, t))) :
    ∃ q1, q1 ∈ getSuffixes D ∧
      rankOf (getSuffixes D) q1 < rankOf (getSuffixes D) (g, t + 1) ∧
      lcpLen (sufStr D q1) (sufStr D (g, t + 1)) + 1 =
        adjLcp D (rankOf (getSuffixes D) (g, t)) := by
  set S := getSuffixes D with hS
  set r := rankOf S (g, t) with hr_def
  have hrN : r < S.length := rank_lt_length S _ hv
  have hgetr : S.get ⟨r, hrN⟩ = (g, t) := get_rank S _ hv
  have hr1N : r - 1 < S.length := by omega
  set q := S.get ⟨r - 1, hr1N⟩ with hq_def
  have hqmem : q ∈ S := List.get_mem S _ _
  -- identify the adjacent lcp with the get-based pred
  have hadj : adjLcp D r = lcpLen (sufStr D q) (sufStr D (g, t)) := by
    rw [adjLcp, ← hS, List.getD_eq_get _ _ hr1N, List.getD_eq_get _ _ hrN, ← hq_def,
      hgetr]
  rw [hadj] at hL
  obtain ⟨c, u, v, hcu, hcv⟩ :=
    lcpLen_pos_shape (sufStr D q) (sufStr D (g, t)) (by omega)
  have hlcp_uv : lcpLen u v + 1 = lcpLen (sufStr D q) (sufStr D (g, t)) := by
    rw [hcu, hcv, lcpLen_cons_eq]
  have huv : 1 ≤ lcpLen u v := by omega
  have hune : u ≠ [] := by
    intro h
    rw [h, lcpLen_nil_left] at huv
    omega
  refine ⟨(q.1, q.2 + 1), valid_succ D q c u hqmem hcu hune, ?_, ?_⟩
  · -- rank of the shifted predecessor is below the rank of (g, t+1)
    have hst : stableR D q (g, t) := by
      have := stableR_get D ⟨r - 1, hr1N⟩ ⟨r, hrN⟩ (by simp; omega)
      rw [hgetr] at this
      exact this
    have hsq1 : sufStr D (q.1, q.2 + 1) = u := sufStr_succ D q c u hcu
    have hsg1 : sufStr D (g, t + 1) = v := by
      have := sufStr_succ D (g, t) c v hcv
      exact this
    rcases hst with hst | ⟨hst, hpos⟩
    · -- strict: tails stay strict below
      apply rank_lt_of_lexLt D _ _ (valid_succ D q c u hqmem hcu hune) hv2
      rw [hsq1, hsg1]
      rw [hcu, hcv, lexLtB_cons_same] at hst
      exact hst
    · -- equal values: stability carries the original order to the shifts
      have huveq : u = v := by
        rw [hcu, hcv] at hst
        injection hst
      apply rank_lt_of_stable D _ _ (valid_succ D q c u hqmem hcu hune) hv2
      · rw [hsq1, hsg1, huveq]
      · exact posLt_succ q (g, t) hpos
  · rw [sufStr_succ D q c u hcu]
    have := sufStr_succ D (g, t) c v hcv
    rw [this]
    omega

theorem getD_rank (S : List (Nat × Nat)) (p : Nat × Nat) (h : p ∈ S) :
    S.getD (rankOf S p) (0, 0) = p := by
  rw [List.getD_eq_get _ _ (rank_lt_length S p h)]
  exact get_rank S p h

theorem lex_le_of_rank_le (D : List (List Nat)) (p q : Nat × Nat)
    (hp : p ∈ getSuffixes D) (hq : q ∈ getSuffixes D)
    (h : rankOf (getSuffixes D) p ≤ rankOf (getSuffixes D) q) :
    lexLeB (sufStr D p) (sufStr D q) = true := by
  rcases Nat.eq_or_lt_of_le h with h2 | h2
  · have hpq : p = q := by
      have hgp := get_rank (getSuffixes D) p hp
      have hgq := get_rank (getSuffixes D) q hq
      rw [← hgp]
      conv_rhs => rw [← hgq]
      congr 1
      exact Fin.ext h2
    rw [hpq, lexLeB_refl]
  · have hst := stableR_get D ⟨rankOf (getSuffixes D) p, rank_lt_length _ p hp⟩
      ⟨rankOf (getSuffixes D) q, rank_lt_length _ q hq⟩ h2
    rw [get_rank _ p hp, get_rank _ q hq] at hst
    exact stableR_to_le D p q hst

theorem kasai_min (D : List (List Nat)) (g t : Nat)
    (hv : (g, t) ∈ getSuffixes D) (hv2 : (g, t + 1) ∈ getSuffixes D)
    (hr : 0 < rankOf (getSuffixes D) (g, t))
    (hr2 : rankOf (getSuffixes D) (g, t + 1) = 0) :
    adjLcp D (rankOf (getSuffixes D) (g, t)) ≤ 1 := by
  by_contra h
  obtain ⟨q1, _, hlt, _⟩ := kasai_core D g t hv hv2 hr (by omega)
  omega

theorem kasai_step_bound (D : List (List Nat)) (g t : Nat)
    (hv : (g, t) ∈ getSuffixes D) (hv2 : (g, t + 1) ∈ getSuffixes D)
    (hr : 0 < rankOf (getSuffixes D) (g, t))
    (hr2 : 0 < rankOf (getSuffixes D) (g, t + 1)) :
    adjLcp D (rankOf (getSuffixes D) (g, t)) - 1 ≤
      adjLcp D (rankOf (getSuffixes D) (g, t + 1)) := by
  by_cases hL : 2 ≤ adjLcp D (rankOf (getSuffixes D) (g, t))
  · obtain ⟨q1, hq1mem, hlt, heq⟩ := kasai_core D g t hv hv2 hr hL
    have hr2N : rankOf (getSuffixes D) (g, t + 1) < (getSuffixes D).length :=
      rank_lt_length _ _ hv2
    have hr21N : rankOf (getSuffixes D) (g, t + 1) - 1 < (getSuffixes D).length := by
      omega
    have hpredmem :
        (getSuffixes D).getD (rankOf (getSuffixes D) (g, t + 1) - 1) (0, 0) ∈
          getSuffixes D := by
      rw [List.getD_eq_get _ _ hr21N]
      exact List.get_mem _ _ _
    have hpredrank :
        rankOf (getSuffixes D)
          ((getSuffixes D).getD (rankOf (getSuffixes D) (g, t + 1) - 1) (0, 0)) =
        rankOf (getSuffixes D) (g, t + 1) - 1 := by
      rw [List.getD_eq_get _ _ hr21N]
      exact rank_get (getSuffixes D) (getSuffixes_nodup D) ⟨_, hr21N⟩
    have hle1 := lex_le_of_rank_le D q1 _ hq1mem hpredmem (by omega)
    have hle2 := lex_le_of_rank_le D _ (g, t + 1) hpredmem hv2 (by rw [hpredrank]; omega)
    have hchain := lcpLen_chain (sufStr D (g, t + 1)) (sufStr D q1) _ hle1 hle2
    have hadj2 : adjLcp D (rankOf (getSuffixes D) (g, t + 1)) =
        lcpLen
          (sufStr D ((getSuffixes D).getD (rankOf (getSuffixes D) (g, t + 1) - 1) (0, 0)))
          (sufStr D (g, t + 1)) := by
      rw [adjLcp, getD_rank (getSuffixes D) (g, t + 1) hv2]
    rw [hadj2]
    omega
  · omega

/- Section E: the inner while loop of get_lcp -/

def whileExtend (last cur : List Nat) (lt t : Nat) : Nat → Nat → Nat
  | 0, h => h
  | fuel + 1, h =>
    if lt + h < last.length ∧ t + h < cur.length ∧
        last.getD (lt + h) 0 = cur.getD (t + h) 0
    then whileExtend last cur lt t fuel (h + 1)
    else h

theorem drop_head_cons (l : List Nat) (n : Nat) (h : n < l.length) :
    l.drop n = l.getD n 0 :: l.drop (n + 1) := by
  rw [List.getD_eq_getElem _ _ h]
  exact (List.getElem_cons_drop l n h).symm

theorem whileExtend_spec (last cur : List Nat) (lt t : Nat) :
    ∀ (fuel h : Nat), cur.length - (t + h) < fuel →
      whileExtend last cur lt t fuel h =
        h + lcpLen (last.drop (lt + h)) (cur.drop (t + h)) := by
  intro fuel
  induction fuel with
  | zero => intro h hf; omega
  | succ fuel ih =>
    intro h hf
    rw [whileExtend]
    by_cases hc : lt + h < last.length ∧ t + h < cur.length ∧
        last.getD (lt + h) 0 = cur.getD (t + h) 0
    · rw [if_pos hc]
      obtain ⟨h1, h2, h3⟩ := hc
      rw [ih (h + 1) (by omega)]
      rw [drop_head_cons last (lt + h) h1, drop_head_cons cur (t + h) h2, h3,
        lcpLen_cons_eq]
      have e1 : lt + h + 1 = lt + (h + 1) := by omega
      have e2 : t + h + 1 = t + (h + 1) := by omega
      rw [e1, e2]
      omega
    · rw [if_neg hc]
      push_neg at hc
      by_cases h1 : lt + h < last.length
      · by_cases h2 : t + h < cur.length
        · have h3 := hc h1 h2
          rw [drop_head_cons last (lt + h) h1, drop_head_cons cur (t + h) h2,
            lcpLen_cons_ne _ _ _ _ h3]
          omega
        · rw [show cur.drop (t + h) = [] from List.drop_eq_nil_of_le (by omega),
            lcpLen_nil_right]
          omega
      · rw [show last.drop (lt + h) = [] from List.drop_eq_nil_of_le (by omega),
          lcpLen_nil_left]
        omega

theorem whileExtend_exact (last cur : List Nat) (lt t h : Nat)
    (hle : h ≤ lcpLen (last.drop lt) (cur.drop t)) :
    whileExtend last cur lt t (cur.length + 1) h = lcpLen (last.drop lt) (cur.drop t) := by
  rw [whileExtend_spec last cur lt t (cur.length + 1) h (by omega)]
  have h2 := lcpLen_drop h (last.drop lt) (cur.drop t) hle
  rw [List.drop_drop, List.drop_drop] at h2
  exact h2

/- Section F: the get_lcp loops -/

def kasaiStep (D : List (List Nat)) (suffixes : List (Nat × Nat)) (g : Nat)
    (st : Nat × List Nat) (t : Nat) : Nat × List Nat :=
  if 0 < rankOf suffixes (g, t) then
    (if 0 < whileExtend (D.getD (suffixes.getD (rankOf suffixes (g, t) - 1) (0, 0)).1 [])
          (D.getD g []) (suffixes.getD (rankOf suffixes (g, t) - 1) (0, 0)).2 t
          ((D.getD g []).length + 1) st.1
     then whileExtend (D.getD (suffixes.getD (rankOf suffixes (g, t) - 1) (0, 0)).1 [])
          (D.getD g []) (suffixes.getD (rankOf suffixes (g, t) - 1) (0, 0)).2 t
          ((D.getD g []).length + 1) st.1 - 1
     else whileExtend (D.getD (suffixes.getD (rankOf suffixes (g, t) - 1) (0, 0)).1 [])
          (D.getD g []) (suffixes.getD (rankOf suffixes (g, t) - 1) (0, 0)).2 t
          ((D.getD g []).length + 1) st.1,
     st.2.set (rankOf suffixes (g, t))
       (whileExtend (D.getD (suffixes.getD (rankOf suffixes (g, t) - 1) (0, 0)).1 [])
          (D.getD g []) (suffixes.getD (rankOf suffixes (g, t) - 1) (0, 0)).2 t
          ((D.getD g []).length + 1) st.1))
  else st

def kasaiGlyph (D : List (List Nat)) (suffixes : List (Nat × Nat)) (g : Nat)
    (lcp : List Nat) : List Nat :=
  ((List.range (D.getD g []).length).foldl (kasaiStep D suffixes g) (0, lcp)).2

def totalLen (D : List (List Nat)) : Nat := (D.map List.length).sum

def getLcp (D : List (List Nat)) : List Nat :=
  (List.range D.length).foldl (fun lcp g => kasaiGlyph D (getSuffixes D) g lcp)
    (List.replicate (totalLen D) 0)

def written (D : List (List Nat)) (g t0 i : Nat) : Prop :=
  0 < i ∧ ((getSuffixes D).getD i (0, 0)).1 = g ∧ t0 ≤ ((getSuffixes D).getD i (0, 0)).2

instance (D : List (List Nat)) (g t0 i : Nat) : Decidable (written D g t0 i) := by
  rw [written]; infer_instance

theorem getD_set_eq2 (l : List Nat) (i v : Nat) (h : i < l.length) :
    (l.set i v).getD i 0 = v := by
  simp [List.getD_eq_getElem?_getD, List.getElem?_set_self, h]

theorem getD_set_ne2 (l : List Nat) (i j v : Nat) (h : i ≠ j) :
    (l.set i v).getD j 0 = l.getD j 0 := by
  simp [List.getD_eq_getElem?_getD, List.getElem?_set_ne h]

theorem getD_replicate0 (n i : Nat) : (List.replicate n (0 : Nat)).getD i 0 = 0 := by
  rw [List.getD_eq_getElem?_getD, List.getElem?_replicate]
  split <;> rfl

theorem getD_mem_getSuffixes (D : List (List Nat)) (i : Nat)
    (hi : i < (getSuffixes D).length) :
    (getSuffixes D).getD i (0, 0) ∈ getSuffixes D := by
  rw [List.getD_eq_get _ _ hi]
  exact List.get_mem _ _ _

theorem rank_getD (D : List (List Nat)) (i : Nat) (hi : i < (getSuffixes D).length) :
    rankOf (getSuffixes D) ((getSuffixes D).getD i (0, 0)) = i := by
  rw [List.getD_eq_get _ _ hi]
  exact rank_get _ (getSuffixes_nodup D) ⟨i, hi⟩

theorem kasaiFold (D : List (List Nat)) (g : Nat) (hg : g < D.length) :
    ∀ (cnt t0 h0 : Nat) (lcp0 : List Nat),
      t0 + cnt = (D.getD g []).length →
      lcp0.length = (getSuffixes D).length →
      (t0 < (D.getD g []).length →
        (0 < rankOf (getSuffixes D) (g, t0) →
          h0 ≤ adjLcp D (rankOf (getSuffixes D) (g, t0))) ∧
        (rankOf (getSuffixes D) (g, t0) = 0 → h0 = 0)) →
      (((List.range' t0 cnt).foldl (kasaiStep D (getSuffixes D) g) (h0, lcp0)).2).length =
          (getSuffixes D).length ∧
      ∀ i, i < (getSuffixes D).length →
        (((List.range' t0 cnt).foldl (kasaiStep D (getSuffixes D) g) (h0, lcp0)).2).getD i 0 =
          if written D g t0 i then adjLcp D i else lcp0.getD i 0 := by
  intro cnt
  induction cnt with
  | zero =>
    intro t0 h0 lcp0 hcnt hlen _
    refine ⟨hlen, ?_⟩
    intro i hi
    have hnw : ¬ written D g t0 i := by
      rintro ⟨hi0, hpg, hpt⟩
      have hmem := getD_mem_getSuffixes D i hi
      rw [mem_getSuffixes] at hmem
      rw [hpg] at hmem
      omega
    rw [if_neg hnw]
    rfl
  | succ cnt ih =>
    intro t0 h0 lcp0 hcnt hlen hinv
    have ht0 : t0 < (D.getD g []).length := by omega
    have hvt0 : (g, t0) ∈ getSuffixes D := (mem_getSuffixes D (g, t0)).mpr ⟨hg, ht0⟩
    rw [List.range'_succ, List.foldl_cons]
    by_cases hr0 : 0 < rankOf (getSuffixes D) (g, t0)
    · -- processing step: the entry at the current rank is written
      have hrN := rank_lt_length (getSuffixes D) _ hvt0
      have hadj : adjLcp D (rankOf (getSuffixes D) (g, t0)) =
          lcpLen
            (sufStr D
              ((getSuffixes D).getD (rankOf (getSuffixes D) (g, t0) - 1) (0, 0)))
            (sufStr D (g, t0)) := by
        rw [adjLcp, getD_rank _ _ hvt0]
      have hinv2 := (hinv ht0).1 hr0
      have hwhile :
          whileExtend
            (D.getD ((getSuffixes D).getD (rankOf (getSuffixes D) (g, t0) - 1) (0, 0)).1 [])
            (D.getD g [])
            ((getSuffixes D).getD (rankOf (getSuffixes D) (g, t0) - 1) (0, 0)).2 t0
            ((D.getD g []).length + 1) h0 =
          adjLcp D (rankOf (getSuffixes D) (g, t0)) := by
        rw [hadj]
        exact whileExtend_exact _ _ _ _ h0 (hadj ▸ hinv2)
      have hstep : kasaiStep D (getSuffixes D) g (h0, lcp0) t0 =
          (adjLcp D (rankOf (getSuffixes D) (g, t0)) - 1,
           lcp0.set (rankOf (getSuffixes D) (g, t0))
             (adjLcp D (rankOf (getSuffixes D) (g, t0)))) := by
        rw [kasaiStep, if_pos hr0]
        show (_, _) = _
        rw [hwhile]
        refine Prod.ext ?_ rfl
        show (if 0 < adjLcp D (rankOf (getSuffixes D) (g, t0)) then
          adjLcp D (rankOf (getSuffixes D) (g, t0)) - 1 else
          adjLcp D (rankOf (getSuffixes D) (g, t0))) = _
        split <;> omega
      rw [hstep]
      have hlen1 : (lcp0.set (rankOf (getSuffixes D) (g, t0))
          (adjLcp D (rankOf (getSuffixes D) (g, t0)))).length =
          (getSuffixes D).length := by
        rw [List.length_set]
        exact hlen
      have hinv1 : t0 + 1 < (D.getD g []).length →
          (0 < rankOf (getSuffixes D) (g, t0 + 1) →
            adjLcp D (rankOf (getSuffixes D) (g, t0)) - 1 ≤
              adjLcp D (rankOf (getSuffixes D) (g, t0 + 1))) ∧
          (rankOf (getSuffixes D) (g, t0 + 1) = 0 →
            adjLcp D (rankOf (getSuffixes D) (g, t0)) - 1 = 0) := by
        intro ht1
        have hvt1 : (g, t0 + 1) ∈ getSuffixes D :=
          (mem_getSuffixes D (g, t0 + 1)).mpr ⟨hg, ht1⟩
        constructor
        · intro hr1
          exact kasai_step_bound D g t0 hvt0 hvt1 hr0 hr1
        · intro hr1
          have := kasai_min D g t0 hvt0 hvt1 hr0 hr1
          omega
      obtain ⟨ihlen, ihpt⟩ := ih (t0 + 1)
        (adjLcp D (rankOf (getSuffixes D) (g, t0)) - 1)
        (lcp0.set (rankOf (getSuffixes D) (g, t0))
          (adjLcp D (rankOf (getSuffixes D) (g, t0))))
        (by omega) hlen1 hinv1
      refine ⟨ihlen, ?_⟩
      intro i hi
      rw [ihpt i hi]
      by_cases hw : written D g (t0 + 1) i
      · obtain ⟨hi0, hpg, hpt⟩ := hw
        rw [if_pos ⟨hi0, hpg, hpt⟩, if_pos ⟨hi0, hpg, by omega⟩]
      · rw [if_neg hw]
        by_cases hir : i = rankOf (getSuffixes D) (g, t0)
        · subst hir
          rw [getD_set_eq2 _ _ _ (by omega)]
          have hpos_eq :
              (getSuffixes D).getD (rankOf (getSuffixes D) (g, t0)) (0, 0) = (g, t0) :=
            getD_rank (getSuffixes D) (g, t0) hvt0
          rw [if_pos ⟨hr0, by rw [hpos_eq], by rw [hpos_eq]⟩]
        · rw [getD_set_ne2 _ _ _ _ (fun h => hir h.symm)]
          have hnw : ¬ written D g t0 i := by
            rintro ⟨hi0, hpg, hpt⟩
            by_cases hpt1 : t0 + 1 ≤ ((getSuffixes D).getD i (0, 0)).2
            · exact hw ⟨hi0, hpg, hpt1⟩
            · have hpt2 : ((getSuffixes D).getD i (0, 0)).2 = t0 := by omega
              have hpos_eq : (getSuffixes D).getD i (0, 0) = (g, t0) := by
                have h1 := hpg
                have h2 := hpt2
                exact Prod.ext h1 h2
              have h3 := rank_getD D i hi
              rw [hpos_eq] at h3
              exact hir h3.symm
          rw [if_neg hnw]
    · -- skipped step: the current suffix is the global minimum
      have hr00 : rankOf (getSuffixes D) (g, t0) = 0 := by omega
      have hstep : kasaiStep D (getSuffixes D) g (h0, lcp0) t0 = (h0, lcp0) := by
        rw [kasaiStep, if_neg hr0]
      rw [hstep]
      have hh0 : h0 = 0 := (hinv ht0).2 hr00
      obtain ⟨ihlen, ihpt⟩ := ih (t0 + 1) h0 lcp0 (by omega) hlen (by
        intro _
        constructor
        · intro _
          rw [hh0]
          exact Nat.zero_le _
        · intro _
          exact hh0)
      refine ⟨ihlen, ?_⟩
      intro i hi
      rw [ihpt i hi]
      by_cases hw : written D g (t0 + 1) i
      · obtain ⟨hi0, hpg, hpt⟩ := hw
        rw [if_pos ⟨hi0, hpg, hpt⟩, if_pos ⟨hi0, hpg, by omega⟩]
      · rw [if_neg hw]
        have hnw : ¬ written D g t0 i := by
          rintro ⟨hi0, hpg, hpt⟩
          by_cases hpt1 : t0 + 1 ≤ ((getSuffixes D).getD i (0, 0)).2
          · exact hw ⟨hi0, hpg, hpt1⟩
          · have hpt2 : ((getSuffixes D).getD i (0, 0)).2 = t0 := by omega
            have hpos_eq : (getSuffixes D).getD i (0, 0) = (g, t0) :=
              Prod.ext hpg hpt2
            have h3 := rank_getD D i hi
            rw [hpos_eq, hr00] at h3
            omega
        rw [if_neg hnw]

theorem kasaiGlyph_spec (D : List (List Nat)) (g : Nat) (hg : g < D.length)
    (lcp0 : List Nat) (hlen : lcp0.length = (getSuffixes D).length) :
    (kasaiGlyph D (getSuffixes D) g lcp0).length = (getSuffixes D).length ∧
    ∀ i, i < (getSuffixes D).length →
      (kasaiGlyph D (getSuffixes D) g lcp0).getD i 0 =
        if written D g 0 i then adjLcp D i else lcp0.getD i 0 := by
  have h := kasaiFold D g hg (D.getD g []).length 0 0 lcp0 (by omega) hlen (by
    intro _
    constructor
    · intro _
      exact Nat.zero_le _
    · intro _
      rfl)
  rw [kasaiGlyph, List.range_eq_range']
  exact h

theorem kasaiOuter (D : List (List Nat)) :
    ∀ (cnt g0 : Nat) (lcp0 : List Nat),
      g0 + cnt = D.length → lcp0.length = (getSuffixes D).length →
      ((List.range' g0 cnt).foldl
          (fun lcp g => kasaiGlyph D (getSuffixes D) g lcp) lcp0).length =
        (getSuffixes D).length ∧
      ∀ i, i < (getSuffixes D).length →
        ((List.range' g0 cnt).foldl
            (fun lcp g => kasaiGlyph D (getSuffixes D) g lcp) lcp0).getD i 0 =
          if 0 < i ∧ g0 ≤ ((getSuffixes D).getD i (0, 0)).1 then adjLcp D i
          else lcp0.getD i 0 := by
  intro cnt
  induction cnt with
  | zero =>
    intro g0 lcp0 hcnt hlen
    refine ⟨hlen, ?_⟩
    intro i hi
    have hnw : ¬ (0 < i ∧ g0 ≤ ((getSuffixes D).getD i (0, 0)).1) := by
      rintro ⟨_, hg1⟩
      have hmem := getD_mem_getSuffixes D i hi
      rw [mem_getSuffixes] at hmem
      omega
    rw [if_neg hnw]
    rfl
  | succ cnt ih =>
    intro g0 lcp0 hcnt hlen
    have hg0 : g0 < D.length := by omega
    rw [List.range'_succ, List.foldl_cons]
    obtain ⟨glen, gpt⟩ := kasaiGlyph_spec D g0 hg0 lcp0 hlen
    obtain ⟨ihlen, ihpt⟩ := ih (g0 + 1) (kasaiGlyph D (getSuffixes D) g0 lcp0)
      (by omega) glen
    refine ⟨ihlen, ?_⟩
    intro i hi
    rw [ihpt i hi]
    by_cases hc1 : 0 < i ∧ g0 + 1 ≤ ((getSuffixes D).getD i (0, 0)).1
    · rw [if_pos hc1, if_pos ⟨hc1.1, by omega⟩]
    · rw [if_neg hc1, gpt i hi]
      by_cases hw : written D g0 0 i
      · obtain ⟨hi0, hpg, _⟩ := hw
        rw [if_pos ⟨hi0, hpg, Nat.zero_le _⟩, if_pos ⟨hi0, by omega⟩]
      · rw [if_neg hw]
        have hnc : ¬ (0 < i ∧ g0 ≤ ((getSuffixes D).getD i (0, 0)).1) := by
          rintro ⟨hi0, hge⟩
          by_cases heq : ((getSuffixes D).getD i (0, 0)).1 = g0
          · exact hw ⟨hi0, heq, Nat.zero_le _⟩
          · exact hc1 ⟨hi0, by omega⟩
        rw [if_neg hnc]

theorem totalLen_eq (D : List (List Nat)) :
    totalLen D = (getSuffixes D).length := by
  have h1 : (getSuffixes D).length = (allPositions D).length :=
    (getSuffixes_perm D).length_eq
  rw [h1, allPositions, List.length_flatMap, totalLen]
  congr 1
  apply List.ext_get
  · simp
  · intro n h2 h3
    simp only [List.length_map] at h2
    simp only [List.get_eq_getElem, List.getElem_map, List.getElem_range,
      Function.comp_apply, List.length_map, List.length_range]
    rw [List.getD_eq_getElem D [] h2]

theorem getLcp_spec (D : List (List Nat)) :
    (getLcp D).length = (getSuffixes D).length ∧
    ∀ i, i < (getSuffixes D).length →
      (getLcp D).getD i 0 = if 0 < i then adjLcp D i else 0 := by
  have hrep : (List.replicate (totalLen D) (0 : Nat)).length = (getSuffixes D).length := by
    rw [List.length_replicate, totalLen_eq]
  rw [getLcp, List.range_eq_range']
  obtain ⟨hl, hp⟩ := kasaiOuter D D.length 0 (List.replicate (totalLen D) 0)
    (by omega) hrep
  refine ⟨hl, ?_⟩
  intro i hi
  rw [hp i hi]
  by_cases h0 : 0 < i
  · rw [if_pos ⟨h0, Nat.zero_le _⟩, if_pos h0]
  · rw [if_neg (fun hc => h0 hc.1), if_neg h0, getD_replicate0]

/-- C5: after get_suffixes and get_lcp, the suffix array lists all corpus
positions in lexicographically non-decreasing order of their suffixes,
lcp[0] = 0, and for every rank r at least 1, lcp[r] is the length of the
longest common prefix of the suffixes at ranks r-1 and r. -/
theorem c5_suffix_sort_lcp (D : List (List Nat)) :
    (getSuffixes D).Pairwise (fun p q => lexLeB (sufStr D p) (sufStr D q) = true) ∧
    (getSuffixes D).Perm (allPositions D) ∧
    (getLcp D).getD 0 0 = 0 ∧
    (∀ r, 1 ≤ r → r < (getSuffixes D).length →
      (getLcp D).getD r 0 =
        lcpLen (sufStr D ((getSuffixes D).getD (r - 1) (0, 0)))
          (sufStr D ((getSuffixes D).getD r (0, 0)))) := by
  refine ⟨?_, getSuffixes_perm D, ?_, ?_⟩
  · exact (getSuffixes_pairwise D).imp (fun h => stableR_to_le D _ _ h)
  · by_cases hN : 0 < (getSuffixes D).length
    · rw [(getLcp_spec D).2 0 hN, if_neg (by omega)]
    · have hl := (getLcp_spec D).1
      have he : getLcp D = [] := List.length_eq_zero.mp (by omega)
      rw [he]
      rfl
  · intro r h1 h2
    rw [(getLcp_spec D).2 r h2, if_pos (by omega)]
    rfl

end Compreffor
